import Mathlib

/-!
Verification of the PII detection-and-redaction engine of
`detector_tharunharirajan.py` against its specification.

The embedding models Python strings as Lean `String` (a list of Unicode
scalar code points, matching Python's code-point strings), and works on
`List Char` internally.  Modelling notes, applied uniformly:

* `re.sub(r'\D', '', s)` keeps decimal digits; digits are modelled as the
  ASCII digits (`Char.isDigit`), the alphabet the program's data uses.
* `str.strip()` / `\s` are modelled as stripping/splitting on the four
  whitespace characters space, tab, carriage return and newline.
* `str.lower()` is modelled as ASCII lowercasing, which is exact on the
  ASCII field names and handle suffixes the program compares against.
-/

namespace PII

/-- Whitespace, as used by `str.strip()` and `str.split()` in the source. -/
def isSpace (c : Char) : Bool :=
  c == ' ' || c == '\t' || c == '\r' || c == '\n'

/-- Remove a trailing run of characters satisfying `p` (the right half of
Python's `str.strip()`). -/
def dropTrailing (p : Char → Bool) : List Char → List Char
  | [] => []
  | a :: t =>
    match dropTrailing p t with
    | [] => if p a then [] else [a]
    | b :: t' => a :: b :: t'

/-- Python `str.strip()` on a list of characters. -/
def pyStripL (l : List Char) : List Char :=
  dropTrailing isSpace (l.dropWhile isSpace)

/-- Python `str.strip()`. -/
def pyStrip (s : String) : String :=
  String.mk (pyStripL s.toList)

/-- ASCII lowercasing of one character (Python `str.lower()` on the ASCII
range actually exercised by the program). -/
def lowerChar (c : Char) : Char :=
  if 65 ≤ c.toNat ∧ c.toNat ≤ 90 then Char.ofNat (c.toNat + 32) else c

/-- Python `str.lower()`. -/
def lowerStr (s : String) : String :=
  String.mk (s.toList.map lowerChar)

/-- Python `s.split()`: split on whitespace runs, discarding empty pieces. -/
def splitWs : List Char → List (List Char)
  | [] => []
  | [c] => if isSpace c then [] else [[c]]
  | c :: d :: t =>
    if isSpace c then splitWs (d :: t)
    else if isSpace d then [c] :: splitWs (d :: t)
    else
      match splitWs (d :: t) with
      | [] => [[c]]
      | w :: ws => (c :: w) :: ws

/-- Python `' '.join(words)`. -/
def joinWords : List (List Char) → List Char
  | [] => []
  | [w] => w
  | w :: ws => w ++ ' ' :: joinWords ws

/-- `re.sub(r'\D', '', s)`: the digits of `s`, in order. -/
def onlyDigits (s : String) : List Char :=
  s.toList.filter Char.isDigit

/-! ## Value classifiers (source lines 14-37, 88-97) -/

/-- `is10DigitPhone` (line 14): exactly 10 digits after stripping non-digits. -/
def is10DigitPhone (val : String) : Bool :=
  (onlyDigits val).length == 10

/-- `isAadhar` (line 18): exactly 12 digits after stripping non-digits. -/
def isAadhar (val : String) : Bool :=
  (onlyDigits val).length == 12

/-- `isPassport` (line 22): trimmed value is one ASCII letter followed by
7 or 8 digits (`re.fullmatch(r'[A-Za-z]\d{7,8}', val.strip())`). -/
def isPassport (val : String) : Bool :=
  match pyStripL val.toList with
  | [] => false
  | c :: rest =>
    c.isAlpha && rest.all Char.isDigit && (rest.length == 7 || rest.length == 8)

/-- The UPI handle allow-list (source lines 9-12). -/
def upiHandles : List String :=
  ["upi", "ybl", "ibl", "paytm", "okhdfcbank", "okaxis", "oksbi", "okicici",
   "axisbank", "hdfcbank", "sbi", "icici", "fbl", "airtel", "apl", "yapl", "kbl", "axl"]

/-- A character of the UPI local-part class `[A-Za-z0-9.\-_]`. -/
def isUpiChar (c : Char) : Bool :=
  c.isAlphanum || c == '.' || c == '-' || c == '_'

/-- Not the `'@'` character (used to split at the first `'@'`,
Python `v.split('@', 1)`). -/
def neAt (c : Char) : Bool := !(c == '@')

/-- Not the `'.'` character (used to split at the first `'.'`,
Python `handle.split('.')[0]`). -/
def neDot (c : Char) : Bool := !(c == '.')

/-- `isUpi` (line 26): the trimmed value contains `'@'`; the part before the
first `'@'` matches `[A-Za-z0-9.\-_]{2,}`; the part after the first `'@'`,
cut at its first `'.'` and lowercased, is in the allow-list.  (The source's
`len(parts) != 2` check is vacuous after `'@' in v`, `split('@', 1)` always
giving two parts.) -/
def isUpi (val : String) : Bool :=
  let t := pyStripL val.toList
  if !(t.contains '@') then false
  else
    let user := t.takeWhile neAt
    let handle := (t.dropWhile neAt).tail
    if !(decide (2 ≤ user.length) && user.all isUpiChar) then false
    else upiHandles.contains (String.mk ((handle.takeWhile neDot).map lowerChar))

/-! ## Maskers (source lines 39-86) -/

/-- The generic redaction sentinel. -/
def sentinel : String := "[REDACTED_PII]"

/-- `maskPhone` (line 39): sentinel unless exactly 10 digits; else first two
digits, six `X`s, last two digits. -/
def maskPhone (val : String) : String :=
  let digits := onlyDigits val
  if digits.length ≠ 10 then sentinel
  else String.mk (digits.take 2) ++ "XXXXXX" ++ String.mk (digits.drop (digits.length - 2))

/-- `maskAadhar` (line 45): sentinel unless exactly 12 digits; else
`"XXXX XXXX "` followed by the last four digits. -/
def maskAadhar (val : String) : String :=
  let digits := onlyDigits val
  if digits.length ≠ 12 then sentinel
  else "XXXX XXXX " ++ String.mk (digits.drop (digits.length - 4))

/-- `maskPassport` (line 51): sentinel unless the (stripped) value passes
`isPassport`; else the first character followed by `X`s.  (The empty case of
the match is unreachable: `isPassport` rejects the empty string.) -/
def maskPassport (val : String) : String :=
  let v := String.mk (pyStripL val.toList)
  if !(isPassport v) then sentinel
  else
    match v.toList with
    | [] => ""
    | c :: rest => String.mk (c :: rest.map fun _ => 'X')

/-- The masked local part of a UPI handle or of an e-mail address's user:
`user[0:1] + 'X'*max(len-1,0)` when short, else
`user[:2] + 'X'*(len-4) + user[-2:]` (source lines 62-65). -/
def maskUser (u : List Char) : List Char :=
  if u.length ≤ 4 then u.take 1 ++ List.replicate (u.length - 1) 'X'
  else u.take 2 ++ List.replicate (u.length - 4) 'X' ++ u.drop (u.length - 2)

/-- `maskUpi` (line 57): sentinel only when the stripped value has no `'@'`;
else the local part is masked by `maskUser` and the handle kept verbatim. -/
def maskUpi (val : String) : String :=
  let t := pyStripL val.toList
  if !(t.contains '@') then sentinel
  else String.mk (maskUser (t.takeWhile neAt) ++ '@' :: (t.dropWhile neAt).tail)

/-- One name token masked: first character kept, the rest replaced by `X`s
(source line 74). -/
def maskTok (w : List Char) : List Char :=
  match w with
  | [] => []
  | c :: rest => c :: rest.map fun _ => 'X'

/-- `maskName` (line 68): split the stripped value on whitespace, mask each
token, and rejoin with single spaces; if no token survives, return the value
unchanged. -/
def maskName (val : String) : String :=
  let parts := splitWs (pyStripL val.toList)
  if parts.isEmpty then val
  else String.mk (joinWords (parts.map maskTok))

/-- The masked local part of an e-mail: `local[0:1] + 'X'*max(len-1,0)` when
of length at most 2, else the first two characters plus `"XXX"` (source
lines 82-85). -/
def maskLocal (l : List Char) : List Char :=
  if l.length ≤ 2 then l.take 1 ++ List.replicate (l.length - 1) 'X'
  else l.take 2 ++ ['X', 'X', 'X']

/-- `maskEmail` (line 77): sentinel only when the stripped value has no
`'@'`; else the local part is masked by `maskLocal` and the domain kept. -/
def maskEmail (val : String) : String :=
  let t := pyStripL val.toList
  if !(t.contains '@') then sentinel
  else String.mk (maskLocal (t.takeWhile neAt) ++ '@' :: (t.dropWhile neAt).tail)

/-! ## The address heuristic (source lines 88-97) -/

/-- Locality markers of `looksLikeAddress` (line 92). -/
def addressMarkers : List String :=
  ["street", "st.", "road", "rd", "lane", "ln", "avenue", "ave", "block",
   "sector", "near", "opp", "apartment", "society", "floor"]

/-- `needle` occurs as a prefix of `hay` (decidable list prefix test). -/
def prefixL : List Char → List Char → Bool
  | [], _ => true
  | _ :: _, [] => false
  | a :: as, b :: bs => a == b && prefixL as bs

/-- Python's `needle in hay` substring test. -/
def hasSubL (hay needle : List Char) : Bool :=
  match hay with
  | [] => needle.isEmpty
  | _ :: t => prefixL needle hay || hasSubL t needle

/-- A regex word character (`\w`), modelled over ASCII. -/
def isWordChar (c : Char) : Bool :=
  c.isAlphanum || c == '_'

/-- Six digits starting here, with `\b` word boundaries on both sides
(`prev` is the character just before this position, if any). -/
def sixDigitAt (prev : Option Char) (l : List Char) : Bool :=
  decide ((l.take 6).length = 6) && (l.take 6).all Char.isDigit
    && (match prev with | none => true | some c => !(isWordChar c))
    && (match l.drop 6 with | [] => true | c :: _ => !(isWordChar c))

/-- Scan every position for `sixDigitAt` (`re.search(r'\b\d{6}\b', t)`). -/
def hasSixAux (prev : Option Char) : List Char → Bool
  | [] => false
  | c :: t => sixDigitAt prev (c :: t) || hasSixAux (some c) t

/-- `re.search(r'\b\d{6}\b', t)` as a Bool. -/
def hasSixDigitToken (l : List Char) : Bool :=
  hasSixAux none l

/-- `looksLikeAddress` (line 88): false on the empty string; else true when
the lowercased text contains a locality marker, or a six-digit token with
word boundaries, or at least two commas with length at least 10. -/
def looksLikeAddress (text : String) : Bool :=
  if text == "" then false
  else
    let t := (lowerStr text).toList
    if addressMarkers.any (fun m => hasSubL t m.toList) then true
    else if hasSixDigitToken t then true
    else decide (2 ≤ (t.filter fun c => c == ',').length) && decide (10 ≤ t.length)

/-! ## The record model

A record is the ordered key/value mapping parsed from one row's JSON.
JSON values are modelled by `JValue` (strings, integers, booleans, null and
arrays; nested objects and floats do not occur in the claims and are outside
the model).  Keys coming from `json.loads` are strings and are unique. -/

inductive JValue where
  | vStr (s : String)
  | vNum (n : Int)
  | vBool (b : Bool)
  | vNull
  | vList (xs : List JValue)

abbrev Record := List (String × JValue)

/-- Python truthiness of a JSON value (`if value:`). -/
def truthy : JValue → Bool
  | .vStr s => !(s == "")
  | .vNum n => !(n == 0)
  | .vBool b => b
  | .vNull => false
  | .vList xs => !xs.isEmpty

/-- Hexadecimal digit characters, for `\uXXXX` escapes. -/
def hexDigitChar (n : Nat) : Char :=
  if n < 10 then Char.ofNat (48 + n) else Char.ofNat (87 + n)

/-- A four-digit lowercase hexadecimal rendering, for `\uXXXX` escapes. -/
def hex4 (n : Nat) : List Char :=
  [hexDigitChar (n / 4096 % 16), hexDigitChar (n / 256 % 16),
   hexDigitChar (n / 16 % 16), hexDigitChar (n % 16)]

/-- One character escaped as by `json.dumps` with its default
`ensure_ascii=True`: quote and backslash escaped, named control escapes,
other control and all non-ASCII characters as `\uXXXX` (with surrogate
pairs above the basic plane). -/
def jsonEscChar (c : Char) : List Char :=
  if c == '"' then ['\\', '"']
  else if c == '\\' then ['\\', '\\']
  else if c == '\n' then ['\\', 'n']
  else if c == '\t' then ['\\', 't']
  else if c == '\r' then ['\\', 'r']
  else if c == Char.ofNat 8 then ['\\', 'b']
  else if c == Char.ofNat 12 then ['\\', 'f']
  else if c.toNat < 32 then '\\' :: 'u' :: hex4 c.toNat
  else if c.toNat < 127 then [c]
  else if c.toNat < 65536 then '\\' :: 'u' :: hex4 c.toNat
  else
    ('\\' :: 'u' :: hex4 (55296 + (c.toNat - 65536) / 1024))
      ++ ('\\' :: 'u' :: hex4 (56320 + (c.toNat - 65536) % 1024))

mutual
/-- `json.dumps(value)` with default separators, over the modelled values. -/
def dumps : JValue → List Char
  | .vStr s => '"' :: (s.toList.map jsonEscChar).flatten ++ ['"']
  | .vNum n => (toString n).toList
  | .vBool b => if b then "true".toList else "false".toList
  | .vNull => "null".toList
  | .vList xs => '[' :: dumpsItems xs ++ [']']
/-- The items of a dumped JSON array, separated by `", "`. -/
def dumpsItems : List JValue → List Char
  | [] => []
  | [x] => dumps x
  | x :: y :: xs => dumps x ++ ',' :: ' ' :: dumpsItems (y :: xs)
end

/-- Source line 125: the string a field's value is classified through —
strings verbatim, `None` as the empty string, anything else serialized by
`json.dumps`. -/
def strOfValue : JValue → String
  | .vStr s => s
  | .vNull => ""
  | v => String.mk (dumps v)

/-! ## Field-name alias sets (source lines 5-8) -/

def phoneKeys : List String := ["phone", "contact", "mobile", "alt_phone", "alt_contact"]

def aadharKeys : List String := ["aadhar", "aadhaar"]

def passportKeys : List String := ["passport"]

def upiKeys : List String := ["upi_id", "upi", "vpa"]

/-! ## The record classifier `detectAndRedact` (source lines 109-172)

The loop body (lines 123-154) treats each field independently: the four
standalone checks either fire (masking the field in the copy and skipping
the combinational checks via `continue`) or fall through to the
combinational signal updates.  `standaloneMask` is that per-field standalone
decision, `entryFix` the per-field redaction, and the `entry…` predicates
the per-field combinational signal contributions, each taking the lowercased
key `k` and classified string `v` exactly as the loop computes them. -/

/-- The standalone branch of the loop body (lines 128-143): the masked
replacement when the field's lowercased name is a known alias and its
classified string passes the corresponding classifier. -/
def standaloneMask (k v : String) : Option String :=
  if phoneKeys.contains k && is10DigitPhone v then some (maskPhone v)
  else if aadharKeys.contains k && isAadhar v then some (maskAadhar v)
  else if passportKeys.contains k && isPassport v then some (maskPassport v)
  else if upiKeys.contains k && isUpi v then some (maskUpi v)
  else none

/-- One field of the redaction copy after the loop: masked when a
standalone check fired, untouched otherwise. -/
def entryFix (kv : String × JValue) : String × JValue :=
  match standaloneMask (lowerStr kv.1) (strOfValue kv.2) with
  | some m => (kv.1, .vStr m)
  | none => kv

/-- The redaction copy after the loop (before combinational masking). -/
def redactPass1 (r : Record) : Record :=
  r.map entryFix

/-- `standaloneHit` after the loop: some field fired a standalone check. -/
def standaloneHitOf (r : Record) : Bool :=
  r.any fun kv => (standaloneMask (lowerStr kv.1) (strOfValue kv.2)).isSome

/-- Line 146: this field sets `hasFullName` (not consumed by a standalone
hit, named `name`, value splitting into at least two tokens; the source's
`isinstance(v, str)` is vacuous, `v` being a string after line 125). -/
def entryFullName (kv : String × JValue) : Bool :=
  (standaloneMask (lowerStr kv.1) (strOfValue kv.2)).isNone
    && lowerStr kv.1 == "name"
    && decide (2 ≤ (splitWs (strOfValue kv.2).toList).length)

/-- Line 148: this field sets `hasEmail`. -/
def entryEmail (kv : String × JValue) : Bool :=
  (standaloneMask (lowerStr kv.1) (strOfValue kv.2)).isNone
    && lowerStr kv.1 == "email"
    && (strOfValue kv.2).toList.contains '@'

/-- Line 150: this field sets `hasAddress`. -/
def entryAddress (kv : String × JValue) : Bool :=
  (standaloneMask (lowerStr kv.1) (strOfValue kv.2)).isNone
    && lowerStr kv.1 == "address"
    && looksLikeAddress (strOfValue kv.2)

/-- Line 153: this field sets `hasDeviceOrIp` (nonempty classified string
different from the placeholder `"0.0.0.0"`). -/
def entryDevice (kv : String × JValue) : Bool :=
  (standaloneMask (lowerStr kv.1) (strOfValue kv.2)).isNone
    && (lowerStr kv.1 == "ip_address" || lowerStr kv.1 == "device_id")
    && (!(strOfValue kv.2 == "") && !(strOfValue kv.2 == "0.0.0.0"))

def hasFullNameOf (r : Record) : Bool := r.any entryFullName

def hasEmailOf (r : Record) : Bool := r.any entryEmail

def hasAddressOf (r : Record) : Bool := r.any entryAddress

def hasDeviceOrIpOf (r : Record) : Bool := r.any entryDevice

/-- `comboHits` (line 156). -/
def comboHitsOf (r : Record) : Nat :=
  (if hasFullNameOf r then 1 else 0) + (if hasEmailOf r then 1 else 0)
    + (if hasAddressOf r then 1 else 0) + (if hasDeviceOrIpOf r then 1 else 0)

/-- `isComboPii` (line 157). -/
def isComboPiiOf (r : Record) : Bool :=
  decide (2 ≤ comboHitsOf r)

/-- Python dict lookup `data[k]` / `k in data` on the (unique-keyed)
record. -/
def getVal (r : Record) (k : String) : Option JValue :=
  (r.find? fun kv => kv.1 == k).map fun kv => kv.2

/-- Python dict assignment `redacted[k] = v`: replace the value stored
under the exact key `k`. -/
def setKey (r : Record) (k : String) (v : JValue) : Record :=
  r.map fun kv => if kv.1 == k then (kv.1, v) else kv

/-- `looksLikeAddress(value)` applied to a raw JSON value, as line 164 does:
falsy values short-circuit to false, non-string truthy values raise
`AttributeError` at `text.lower()` (modelled as `Except.error`). -/
def looksLikeAddressV : JValue → Except Unit Bool
  | .vStr s => .ok (looksLikeAddress s)
  | v => if truthy v then .error () else .ok false

/-- The address condition of line 164 (`'address' in data and
looksLikeAddress(data.get('address',''))`). -/
def addressCheck (data : Record) : Except Unit Bool :=
  match getVal data "address" with
  | none => .ok false
  | some v => looksLikeAddressV v

/-- Lines 160-161: mask `name` in the copy when the original holds a string
of at least two whitespace-separated tokens. -/
def nmStep (data red : Record) : Record :=
  match getVal data "name" with
  | some (.vStr s) =>
    if decide (2 ≤ (splitWs s.toList).length) then setKey red "name" (.vStr (maskName s)) else red
  | _ => red

/-- Lines 162-163: mask `email` in the copy when the original holds a string
containing `'@'`. -/
def emStep (data red : Record) : Record :=
  match getVal data "email" with
  | some (.vStr s) =>
    if s.toList.contains '@' then setKey red "email" (.vStr (maskEmail s)) else red
  | _ => red

/-- Lines 164-165: replace `address` with the sentinel when the address
condition `b` (computed by `addressCheck`) held. -/
def addrStep (b : Bool) (red : Record) : Record :=
  if b then setKey red "address" (.vStr sentinel) else red

/-- Lines 166-167: replace a present, truthy `ip_address` with the sentinel. -/
def ipStep (data red : Record) : Record :=
  match getVal data "ip_address" with
  | some v => if truthy v then setKey red "ip_address" (.vStr sentinel) else red
  | none => red

/-- Lines 168-169: replace a present, truthy `device_id` with the sentinel. -/
def devStep (data red : Record) : Record :=
  match getVal data "device_id" with
  | some v => if truthy v then setKey red "device_id" (.vStr sentinel) else red
  | none => red

/-- The combinational masking block (lines 159-169), applied to the
redaction copy `red` while reading the original values from `data`.  Only
the exact keys `name`, `email`, `address`, `ip_address` and `device_id`
are consulted and written.  The steps are pure, so evaluating the fallible
address condition first is equivalent to the source's statement order. -/
def comboRedact (data red : Record) : Except Unit Record :=
  match addressCheck data with
  | .error e => .error e
  | .ok b => .ok (devStep data (ipStep data (addrStep b (emStep data (nmStep data red)))))

/-- `detectAndRedact` (line 109): the redacted copy and the overall PII
flag, or `Except.error` on the one reachable exception (line 164 with a
truthy non-string address value under an active combinational rule). -/
def detectAndRedact (record : Record) : Except Unit (Record × Bool) :=
  let combo := isComboPiiOf record
  let base := redactPass1 record
  let redres := if combo then comboRedact record base else .ok base
  match redres with
  | .error e => .error e
  | .ok red => .ok (red, standaloneHitOf record || combo)

/-! ## Statement-side definitions

These are not part of the embedded program: they only serve to state
properties about it. -/

/-- Rename every key of a record through `f`, keeping values. -/
def relabel (f : String → String) (r : Record) : Record :=
  r.map fun kv => (f kv.1, kv.2)

/-- Modelled from the spec's words, as amended for C7: the trimmed value
contains at least one `'@'` (not exactly one); the local part before the
first `'@'` consists of `[A-Za-z0-9._-]` characters and has length at least
2; and the part after the first `'@'`, truncated at its first `'.'` and
lowercased, is in the provider allow-list. -/
def upiSpecAmended (v : String) : Prop :=
  '@' ∈ pyStripL v.toList ∧
  2 ≤ ((pyStripL v.toList).takeWhile neAt).length ∧
  (∀ c ∈ (pyStripL v.toList).takeWhile neAt, isUpiChar c = true) ∧
  String.mk ((((pyStripL v.toList).dropWhile neAt).tail.takeWhile neDot).map lowerChar)
    ∈ upiHandles

/-- A case-only relabelling, used to instantiate the case-insensitivity
statement at a concrete renaming: it capitalizes the `name` key. -/
def capName (k : String) : String := if k == "name" then "Name" else k

/-! ## Lemmas about stripping -/

theorem toList_mk (l : List Char) : (String.mk l).toList = l := rfl

theorem toList_append (s t : String) : (s ++ t).toList = s.toList ++ t.toList :=
  String.data_append s t

theorem dropWhile_head_not {p : Char → Bool} {l t : List Char} {c : Char}
    (h : l.dropWhile p = c :: t) : p c = false := by
  induction l with
  | nil => simp at h
  | cons a l ih =>
    rw [List.dropWhile_cons] at h
    by_cases ha : p a = true
    · exact ih (by simpa [ha] using h)
    · obtain ⟨rfl, -⟩ := List.cons.injEq .. ▸ (by simpa [ha] using h : a :: l = c :: t)
      simpa using ha

theorem mem_dropWhile_of {p : Char → Bool} {l : List Char} {c : Char}
    (hc : c ∈ l) (hp : p c = false) : c ∈ l.dropWhile p := by
  induction l with
  | nil => simp at hc
  | cons a l ih =>
    rw [List.dropWhile_cons]
    by_cases ha : p a = true
    · simp only [ha, if_true]
      rcases List.mem_cons.mp hc with rfl | hmem
      · rw [ha] at hp; simp at hp
      · exact ih hmem
    · simp [ha, hc]

theorem dropTrailing_head {p : Char → Bool} {a y : Char} {t ys : List Char}
    (h : dropTrailing p (a :: t) = y :: ys) : y = a := by
  rw [dropTrailing] at h
  rcases hd : dropTrailing p t with _ | ⟨b, t'⟩ <;> rw [hd] at h
  · by_cases hp : p a = true
    · simp [hp] at h
    · simp [hp] at h
      exact h.1.symm
  · exact (List.cons.injEq .. ▸ h).1.symm

theorem dropTrailing_eq_nil {p : Char → Bool} {l : List Char}
    (h : dropTrailing p l = []) : ∀ c ∈ l, p c = true := by
  induction l with
  | nil => simp
  | cons a t ih =>
    intro c hc
    rw [dropTrailing] at h
    rcases hd : dropTrailing p t with _ | ⟨b, t'⟩ <;> rw [hd] at h
    · by_cases hp : p a = true
      · rcases List.mem_cons.mp hc with rfl | hmem
        · exact hp
        · exact ih hd c hmem
      · simp [hp] at h
    · simp at h

theorem dropTrailing_getLast {p : Char → Bool} {l l' : List Char} {b : Char}
    (h : dropTrailing p l = l') (hb : l'.getLast? = some b) : p b = false := by
  induction l generalizing l' with
  | nil => rw [dropTrailing] at h; subst h; simp at hb
  | cons a t ih =>
    rw [dropTrailing] at h
    rcases hd : dropTrailing p t with _ | ⟨c, t'⟩ <;> rw [hd] at h
    · by_cases hp : p a = true <;> simp [hp] at h <;> subst h
      · simp at hb
      · simp at hb; subst hb; simpa using hp
    · subst h
      rw [List.getLast?_cons_cons] at hb
      exact ih hd hb

theorem dropTrailing_eq_self {p : Char → Bool} {l : List Char} {b : Char}
    (hb : l.getLast? = some b) (hp : p b = false) : dropTrailing p l = l := by
  induction l with
  | nil => simp at hb
  | cons a t ih =>
    rcases t with _ | ⟨c, t'⟩
    · simp only [List.getLast?_singleton, Option.some.injEq] at hb
      subst hb
      rw [dropTrailing]
      simp [dropTrailing, hp]
    · have hbt : (c :: t').getLast? = some b := by
        rw [List.getLast?_cons_cons] at hb; exact hb
      rw [dropTrailing, ih hbt]

theorem mem_dropTrailing {p : Char → Bool} {l : List Char} {c : Char}
    (hc : c ∈ dropTrailing p l) : c ∈ l := by
  induction l with
  | nil => rw [dropTrailing] at hc; simp at hc
  | cons a t ih =>
    rw [dropTrailing] at hc
    rcases hd : dropTrailing p t with _ | ⟨b, t'⟩ <;> rw [hd] at hc
    · by_cases hp : p a = true <;> simp [hp] at hc
      · simp [hc]
    · rcases List.mem_cons.mp hc with rfl | hmem
      · simp
      · exact List.mem_cons_of_mem a (ih (hd ▸ hmem))

theorem mem_dropTrailing_of {p : Char → Bool} {l : List Char} {c : Char}
    (hc : c ∈ l) (hp : p c = false) : c ∈ dropTrailing p l := by
  induction l with
  | nil => simp at hc
  | cons a t ih =>
    rw [dropTrailing]
    rcases List.mem_cons.mp hc with rfl | hmem
    · rcases hd : dropTrailing p t with _ | ⟨b, t'⟩
      · simp [hp]
      · simp
    · have := ih hmem
      rcases hd : dropTrailing p t with _ | ⟨b, t'⟩ <;> rw [hd] at this
      · simp at this
      · simp [this]

theorem pyStripL_head {l t : List Char} {c : Char}
    (h : pyStripL l = c :: t) : isSpace c = false := by
  unfold pyStripL at h
  rcases hd : l.dropWhile isSpace with _ | ⟨a, t'⟩ <;> rw [hd] at h
  · rw [dropTrailing] at h; simp at h
  · have ha := dropWhile_head_not hd
    have hca := dropTrailing_head h
    subst hca
    exact ha

theorem pyStripL_last {l l' : List Char} {b : Char}
    (h : pyStripL l = l') (hb : l'.getLast? = some b) : isSpace b = false :=
  dropTrailing_getLast h hb

theorem pyStripL_eq_self {l : List Char} {c b : Char} {t : List Char}
    (hhead : l = c :: t) (hc : isSpace c = false)
    (hb : l.getLast? = some b) (hpb : isSpace b = false) : pyStripL l = l := by
  unfold pyStripL
  rw [hhead, List.dropWhile_cons, hc]
  simp only [Bool.false_eq_true, if_false]
  exact hhead ▸ dropTrailing_eq_self hb hpb

theorem pyStripL_idem (l : List Char) : pyStripL (pyStripL l) = pyStripL l := by
  rcases h : pyStripL l with _ | ⟨c, t⟩
  · rfl
  · have hc : isSpace c = false := pyStripL_head h
    have hsome : (c :: t).getLast?.isSome := List.getLast?_isSome.mpr (by simp)
    obtain ⟨b, hbeq⟩ := Option.isSome_iff_exists.mp hsome
    have hpb : isSpace b = false := pyStripL_last h hbeq
    exact pyStripL_eq_self rfl hc hbeq hpb

theorem mem_pyStripL {l : List Char} {c : Char} (hc : c ∈ pyStripL l) : c ∈ l := by
  unfold pyStripL at hc
  have h1 := mem_dropTrailing hc
  exact List.dropWhile_sublist isSpace |>.mem h1

theorem mem_pyStripL_of {l : List Char} {c : Char}
    (hc : c ∈ l) (hp : isSpace c = false) : c ∈ pyStripL l :=
  mem_dropTrailing_of (mem_dropWhile_of hc hp) hp

/-! ## Lemmas about whitespace splitting -/

theorem splitWs_space_cons {c : Char} (hc : isSpace c = true) (r : List Char) :
    splitWs (c :: r) = splitWs r := by
  rcases r with _ | ⟨d, t⟩
  · simp [splitWs, hc]
  · simp [splitWs, hc]

theorem splitWs_sound {l : List Char} :
    ∀ w ∈ splitWs l, w ≠ [] ∧ ∀ c ∈ w, isSpace c = false := by
  induction l using splitWs.induct with
  | case1 => intro w hw; simp [splitWs] at hw
  | case2 c hc => intro w hw; simp [splitWs, hc] at hw
  | case3 c hc =>
    intro w hw
    rw [splitWs, if_neg hc] at hw
    simp only [List.mem_singleton] at hw
    subst hw
    exact ⟨by simp, by intro x hx; simp at hx; subst hx; simpa using hc⟩
  | case4 c d t hc ih =>
    rw [splitWs_space_cons hc]
    exact ih
  | case5 c d t hc hd ih =>
    intro w hw
    rw [splitWs, if_neg hc, if_pos hd] at hw
    rcases List.mem_cons.mp hw with rfl | hmem
    · exact ⟨by simp, by intro x hx; simp at hx; subst hx; simpa using hc⟩
    · exact ih w hmem
  | case6 c d t hc hd hsplit ih =>
    intro w hw
    rw [splitWs, if_neg hc, if_neg hd, hsplit] at hw
    simp only [List.mem_singleton] at hw
    subst hw
    exact ⟨by simp, by intro x hx; simp at hx; subst hx; simpa using hc⟩
  | case7 c d t hc hd w0 ws0 hsplit ih =>
    intro w hw
    rw [splitWs, if_neg hc, if_neg hd, hsplit] at hw
    rcases List.mem_cons.mp hw with rfl | hmem
    · have h0 := ih w0 (by rw [hsplit]; simp)
      refine ⟨by simp, ?_⟩
      intro x hx
      rcases List.mem_cons.mp hx with rfl | hx2
      · simpa using hc
      · exact h0.2 x hx2
    · exact ih w (by rw [hsplit]; simp [hmem])

theorem splitWs_all_space {l : List Char} (h : ∀ c ∈ l, isSpace c = true) :
    splitWs l = [] := by
  induction l using splitWs.induct with
  | case1 => rfl
  | case2 c hc => simp [splitWs, hc]
  | case3 c hc => exact absurd (h c (by simp)) (by simpa using hc)
  | case4 c d t hc ih =>
    rw [splitWs_space_cons hc]
    exact ih fun x hx => h x (List.mem_cons_of_mem _ hx)
  | case5 c d t hc hd ih => exact absurd (h c (by simp)) (by simpa using hc)
  | case6 c d t hc hd hs ih => exact absurd (h c (by simp)) (by simpa using hc)
  | case7 c d t hc hd w0 ws0 hs ih => exact absurd (h c (by simp)) (by simpa using hc)

theorem splitWs_cons_ne_nil {d : Char} {t : List Char} (hd : isSpace d = false) :
    splitWs (d :: t) ≠ [] := by
  rcases t with _ | ⟨e, t'⟩
  · simp [splitWs, hd]
  · rw [splitWs, if_neg (by simp [hd])]
    by_cases he : isSpace e = true
    · simp [he]
    · simp only [if_neg he]
      rcases hs : splitWs (e :: t') with _ | ⟨w, ws⟩ <;> simp

theorem splitWs_word {w : List Char} (hne : w ≠ []) (hw : ∀ c ∈ w, isSpace c = false) :
    splitWs w = [w] := by
  induction w with
  | nil => simp at hne
  | cons c t ih =>
    have hc := hw c (by simp)
    rcases t with _ | ⟨d, t'⟩
    · simp [splitWs, hc]
    · have hd := hw d (by simp)
      rw [splitWs, if_neg (by simp [hc]), if_neg (by simp [hd])]
      rw [ih (by simp) fun x hx => hw x (by simp [hx])]

theorem splitWs_append_space {w : List Char} (hne : w ≠ []) (hw : ∀ c ∈ w, isSpace c = false)
    (rest : List Char) : splitWs (w ++ ' ' :: rest) = w :: splitWs rest := by
  induction w with
  | nil => simp at hne
  | cons c t ih =>
    have hc := hw c (by simp)
    rcases t with _ | ⟨d, t'⟩
    · rw [List.cons_append, List.nil_append, splitWs, if_neg (by simp [hc]),
        if_pos (by decide : isSpace ' ' = true), splitWs_space_cons (by decide)]
    · have hd := hw d (by simp)
      rw [List.cons_append, List.cons_append, splitWs, if_neg (by simp [hc]),
        if_neg (by simp [hd])]
      have hih := ih (by simp) fun x hx => hw x (by simp [hx])
      rw [List.cons_append] at hih
      rw [hih]

theorem splitWs_join {ws : List (List Char)}
    (h : ∀ w ∈ ws, w ≠ [] ∧ ∀ c ∈ w, isSpace c = false) :
    splitWs (joinWords ws) = ws := by
  induction ws with
  | nil => rfl
  | cons w ws ih =>
    rcases ws with _ | ⟨w2, ws'⟩
    · rw [joinWords]
      exact splitWs_word (h w (by simp)).1 (h w (by simp)).2
    · have hj : joinWords (w :: w2 :: ws') = w ++ ' ' :: joinWords (w2 :: ws') := rfl
      rw [hj, splitWs_append_space (h w (by simp)).1 (h w (by simp)).2,
        ih fun x hx => h x (by simp [hx])]

theorem splitWs_dropWhile (l : List Char) :
    splitWs (l.dropWhile isSpace) = splitWs l := by
  induction l with
  | nil => rfl
  | cons c t ih =>
    rw [List.dropWhile_cons]
    by_cases hc : isSpace c = true
    · rw [if_pos hc, ih, splitWs_space_cons hc]
    · rw [if_neg hc]

theorem splitWs_dropTrailing (l : List Char) :
    splitWs (dropTrailing isSpace l) = splitWs l := by
  induction l using splitWs.induct with
  | case1 => rfl
  | case2 c hc => simp [dropTrailing, splitWs, hc]
  | case3 c hc => simp [dropTrailing, splitWs, hc]
  | case4 c d t hc ih =>
    rw [dropTrailing]
    rcases hdt : dropTrailing isSpace (d :: t) with _ | ⟨b, t'⟩
    · rw [if_pos hc]
      rw [hdt] at ih
      rw [splitWs_space_cons hc, ← ih]
    · have hb : b = d := dropTrailing_head hdt
      subst hb
      rw [hdt] at ih
      rw [splitWs_space_cons hc, splitWs_space_cons hc, ih]
  | case5 c d t hc hd ih =>
    have hc' : isSpace c = false := by simpa using hc
    rw [dropTrailing]
    rcases hdt : dropTrailing isSpace (d :: t) with _ | ⟨b, t'⟩
    · rw [hdt] at ih
      rw [splitWs, if_neg hc, if_pos hd, ← ih]
      simp [splitWs, hc']
    · have hb : b = d := dropTrailing_head hdt
      subst hb
      rw [hdt] at ih
      rw [splitWs, if_neg hc, if_pos hd]
      rw [splitWs, if_neg hc, if_pos hd, ih]
  | case6 c d t hc hd hsplit ih =>
    exact absurd hsplit (splitWs_cons_ne_nil (by simpa using hd))
  | case7 c d t hc hd w0 ws0 hsplit ih =>
    rw [dropTrailing]
    rcases hdt : dropTrailing isSpace (d :: t) with _ | ⟨b, t'⟩
    · have : isSpace d = true := dropTrailing_eq_nil hdt d (by simp)
      exact absurd this (by simpa using hd)
    · have hb : b = d := dropTrailing_head hdt
      subst hb
      rw [hdt] at ih
      rw [splitWs, if_neg hc, if_neg hd, ih, hsplit]
      rw [splitWs, if_neg hc, if_neg hd, hsplit]

theorem splitWs_pyStripL (l : List Char) : splitWs (pyStripL l) = splitWs l := by
  unfold pyStripL
  rw [splitWs_dropTrailing, splitWs_dropWhile]

/-! ## Lemmas about takeWhile and dropWhile -/

theorem takeWhile_all {p : Char → Bool} {xs : List Char} (h : ∀ c ∈ xs, p c = true) :
    xs.takeWhile p = xs := by
  induction xs with
  | nil => rfl
  | cons x t ih =>
    rw [List.takeWhile_cons, if_pos (h x (by simp))]
    rw [ih fun c hc => h c (by simp [hc])]

theorem dropWhile_all {p : Char → Bool} {xs : List Char} (h : ∀ c ∈ xs, p c = true) :
    xs.dropWhile p = [] := by
  induction xs with
  | nil => rfl
  | cons x t ih =>
    rw [List.dropWhile_cons, if_pos (h x (by simp))]
    exact ih fun c hc => h c (by simp [hc])

theorem takeWhile_all_append {p : Char → Bool} {xs : List Char} {a : Char} (r : List Char)
    (hxs : ∀ c ∈ xs, p c = true) (ha : p a = false) :
    (xs ++ a :: r).takeWhile p = xs := by
  induction xs with
  | nil => simp [List.takeWhile_cons, ha]
  | cons x t ih =>
    rw [List.cons_append, List.takeWhile_cons, if_pos (hxs x (by simp))]
    rw [ih fun c hc => hxs c (by simp [hc])]

theorem dropWhile_all_append {p : Char → Bool} {xs : List Char} {a : Char} (r : List Char)
    (hxs : ∀ c ∈ xs, p c = true) (ha : p a = false) :
    (xs ++ a :: r).dropWhile p = a :: r := by
  induction xs with
  | nil => simp [List.dropWhile_cons, ha]
  | cons x t ih =>
    rw [List.cons_append, List.dropWhile_cons, if_pos (hxs x (by simp))]
    exact ih fun c hc => hxs c (by simp [hc])

/-! ## Character class facts -/

theorem isSpace_cases {c : Char} (h : isSpace c = true) :
    c = ' ' ∨ c = '\t' ∨ c = '\r' ∨ c = '\n' := by
  unfold isSpace at h
  simp only [Bool.or_eq_true, beq_iff_eq] at h
  tauto

theorem alpha_not_space {c : Char} (h : c.isAlpha = true) : isSpace c = false := by
  rcases hb : isSpace c
  · rfl
  · rcases isSpace_cases hb with rfl | rfl | rfl | rfl <;> exact absurd h (by decide)

theorem upiChar_not_space {c : Char} (h : isUpiChar c = true) : isSpace c = false := by
  rcases hb : isSpace c
  · rfl
  · rcases isSpace_cases hb with rfl | rfl | rfl | rfl <;> exact absurd h (by decide)

theorem upiChar_neAt {c : Char} (h : isUpiChar c = true) : neAt c = true := by
  rcases hb : neAt c
  · have : c = '@' := by simpa [neAt] using hb
    subst this
    exact absurd h (by decide)
  · rfl

/-! ## Digit-count masker lemmas -/

theorem onlyDigits_append (s t : String) :
    onlyDigits (s ++ t) = onlyDigits s ++ onlyDigits t := by
  unfold onlyDigits
  rw [toList_append, List.filter_append]

theorem onlyDigits_all {s : String} {c : Char} (hc : c ∈ onlyDigits s) :
    Char.isDigit c = true :=
  (List.mem_filter.mp hc).2

/-- Masking a valid phone leaves only four digits, so the mask no longer
classifies as a phone. -/
theorem maskPhone_kills {v : String} (h : is10DigitPhone v = true) :
    is10DigitPhone (maskPhone v) = false := by
  have hd : (onlyDigits v).length = 10 := by simpa [is10DigitPhone] using h
  have h2 : onlyDigits (maskPhone v)
      = (onlyDigits v).take 2 ++ (onlyDigits v).drop ((onlyDigits v).length - 2) := by
    unfold maskPhone
    rw [if_neg (by simp [hd])]
    rw [onlyDigits_append, onlyDigits_append]
    have e1 : onlyDigits (String.mk ((onlyDigits v).take 2)) = (onlyDigits v).take 2 :=
      List.filter_eq_self.mpr fun c hc => onlyDigits_all (List.take_subset _ _ hc)
    have e2 : onlyDigits (String.mk ((onlyDigits v).drop ((onlyDigits v).length - 2)))
        = (onlyDigits v).drop ((onlyDigits v).length - 2) :=
      List.filter_eq_self.mpr fun c hc => onlyDigits_all (List.drop_subset _ _ hc)
    have e3 : onlyDigits "XXXXXX" = [] := rfl
    rw [e1, e2, e3, List.append_nil]
  rw [is10DigitPhone, h2]
  simp [hd]

/-- Masking a valid national id leaves only four digits. -/
theorem maskAadhar_kills {v : String} (h : isAadhar v = true) :
    isAadhar (maskAadhar v) = false := by
  have hd : (onlyDigits v).length = 12 := by simpa [isAadhar] using h
  have h2 : onlyDigits (maskAadhar v)
      = (onlyDigits v).drop ((onlyDigits v).length - 4) := by
    unfold maskAadhar
    rw [if_neg (by simp [hd])]
    rw [onlyDigits_append]
    have e2 : onlyDigits (String.mk ((onlyDigits v).drop ((onlyDigits v).length - 4)))
        = (onlyDigits v).drop ((onlyDigits v).length - 4) :=
      List.filter_eq_self.mpr fun c hc => onlyDigits_all (List.drop_subset _ _ hc)
    have e3 : onlyDigits "XXXX XXXX " = [] := rfl
    rw [e2, e3, List.nil_append]
  rw [isAadhar, h2]
  simp [hd]

/-! ## Passport masker lemmas -/

theorem isPassport_strip (v : String) :
    isPassport (String.mk (pyStripL v.toList)) = isPassport v := by
  unfold isPassport
  rw [toList_mk, pyStripL_idem]

/-- Masking a valid passport yields a letter followed by `X`s, which no
longer classifies as a passport. -/
theorem maskPassport_kills {v : String} (h : isPassport v = true) :
    isPassport (maskPassport v) = false := by
  unfold maskPassport
  simp only [isPassport_strip, h, Bool.not_true, Bool.false_eq_true, if_false, toList_mk]
  rcases hm : pyStripL v.toList with _ | ⟨c, rest⟩
  · unfold isPassport at h
    rw [hm] at h
    simp at h
  · unfold isPassport at h
    rw [hm] at h
    simp only [Bool.and_eq_true] at h
    obtain ⟨⟨hca, hall⟩, hlen⟩ := h
    have hrest : rest ≠ [] := by
      intro he
      rw [he] at hlen
      simp at hlen
    have hstrip : pyStripL (c :: rest.map fun _ => 'X') = c :: rest.map fun _ => 'X' := by
      have hsome : (c :: rest.map fun _ => 'X' : List Char).getLast?.isSome :=
        List.getLast?_isSome.mpr (by simp)
      obtain ⟨b, hbeq⟩ := Option.isSome_iff_exists.mp hsome
      have hbmem : b ∈ (c :: rest.map fun _ => 'X' : List Char) :=
        List.mem_of_mem_getLast? hbeq
      have hbns : isSpace b = false := by
        rcases List.mem_cons.mp hbmem with rfl | hmap
        · exact alpha_not_space hca
        · obtain ⟨x, hx, rfl⟩ := List.mem_map.mp hmap
          decide
      exact pyStripL_eq_self rfl (alpha_not_space hca) hbeq hbns
    unfold isPassport
    rw [toList_mk, hstrip]
    rcases rest with _ | ⟨r0, rt⟩
    · exact absurd rfl hrest
    · simp

/-! ## UPI and e-mail masker lemmas -/

theorem maskUser_length (u : List Char) : (maskUser u).length = u.length := by
  unfold maskUser
  by_cases h : u.length ≤ 4
  · rw [if_pos h]
    simp only [List.length_append, List.length_take, List.length_replicate]
    omega
  · rw [if_neg h]
    simp only [List.length_append, List.length_take, List.length_replicate, List.length_drop]
    omega

theorem maskUser_mem {u : List Char} {c : Char} (hc : c ∈ maskUser u) :
    c ∈ u ∨ c = 'X' := by
  unfold maskUser at hc
  by_cases h : u.length ≤ 4
  · rw [if_pos h] at hc
    rcases List.mem_append.mp hc with h1 | h2
    · exact Or.inl (List.take_subset _ _ h1)
    · exact Or.inr (List.eq_of_mem_replicate h2)
  · rw [if_neg h] at hc
    rcases List.mem_append.mp hc with h1 | h2
    · rcases List.mem_append.mp h1 with h3 | h4
      · exact Or.inl (List.take_subset _ _ h3)
      · exact Or.inr (List.eq_of_mem_replicate h4)
    · exact Or.inl (List.drop_subset _ _ h2)

theorem maskUser_head {x : Char} {xs : List Char} :
    ∃ ys, maskUser (x :: xs) = x :: ys := by
  unfold maskUser
  by_cases h : (x :: xs).length ≤ 4
  · rw [if_pos h]
    exact ⟨_, rfl⟩
  · rw [if_neg h]
    exact ⟨_, rfl⟩

theorem maskUser_idem (u : List Char) : maskUser (maskUser u) = maskUser u := by
  by_cases h : u.length ≤ 4
  · rcases u with _ | ⟨a, t⟩
    · rfl
    · have h1 : maskUser (a :: t) = a :: List.replicate t.length 'X' := by
        unfold maskUser
        rw [if_pos h]
        simp
      rw [h1]
      unfold maskUser
      rw [if_pos (by simpa using h)]
      simp
  · have h4 : 4 < u.length := by omega
    have h1 : maskUser u
        = u.take 2 ++ List.replicate (u.length - 4) 'X' ++ u.drop (u.length - 2) := by
      unfold maskUser
      rw [if_neg h]
    have hAl : (u.take 2).length = 2 := by
      simp only [List.length_take]
      omega
    have hBl : (List.replicate (u.length - 4) 'X').length = u.length - 4 := by simp
    have hCl : (u.drop (u.length - 2)).length = 2 := by
      simp only [List.length_drop]
      omega
    have hml : (maskUser u).length = u.length := maskUser_length u
    rw [h1]
    unfold maskUser
    rw [if_neg (by rw [← h1, hml]; omega)]
    have htake : (u.take 2 ++ List.replicate (u.length - 4) 'X' ++ u.drop (u.length - 2)).take 2
        = u.take 2 := by
      rw [List.append_assoc, List.take_append_eq_append_take, hAl]
      simp [List.take_take]
    have hlen' : (u.take 2 ++ List.replicate (u.length - 4) 'X'
        ++ u.drop (u.length - 2)).length = u.length := by
      rw [← h1]
      exact hml
    have hdrop : (u.take 2 ++ List.replicate (u.length - 4) 'X'
        ++ u.drop (u.length - 2)).drop (u.length - 2)
        = u.drop (u.length - 2) := by
      rw [List.drop_append_eq_append_drop]
      have habl : (u.take 2 ++ List.replicate (u.length - 4) 'X').length = u.length - 2 := by
        simp only [List.length_append, hAl, hBl]
        omega
      rw [List.drop_eq_nil_of_le (by rw [habl]), habl]
      simp
    rw [htake, hlen', hdrop]

theorem dropWhile_at {t : List Char} (h : '@' ∈ t) :
    t.dropWhile neAt = '@' :: (t.dropWhile neAt).tail := by
  rcases hd : t.dropWhile neAt with _ | ⟨c, tl⟩
  · have : ∀ x ∈ t, neAt x = true := List.dropWhile_eq_nil_iff.mp hd
    have := this '@' h
    simp [neAt] at this
  · have hc : neAt c = false := dropWhile_head_not hd
    have hceq : c = '@' := by simpa [neAt] using hc
    subst hceq
    rfl

theorem at_decomp {t : List Char} (h : '@' ∈ t) :
    t = t.takeWhile neAt ++ '@' :: (t.dropWhile neAt).tail := by
  conv_lhs => rw [← List.takeWhile_append_dropWhile neAt t]
  rw [← dropWhile_at h]

theorem takeWhile_neAt_all {t : List Char} :
    ∀ c ∈ t.takeWhile neAt, neAt c = true :=
  fun _ hc => List.mem_takeWhile_imp hc

/-- Stripping is a no-op on a masked `local@domain` rebuilt from a stripped
original: its head is the original's head (or `'@'`) and its last character
is the original's last (or `'@'`). -/
theorem strip_noop_at {val : String} {u hd pre : List Char}
    (ht : pyStripL val.toList = u ++ '@' :: hd)
    (hhead : (u = [] ∧ pre = []) ∨ ∃ x xs ys, u = x :: xs ∧ pre = x :: ys) :
    pyStripL (pre ++ '@' :: hd) = pre ++ '@' :: hd := by
  have hlast : ∃ b, (pre ++ '@' :: hd).getLast? = some b ∧ isSpace b = false := by
    rcases hhd : hd with _ | ⟨h0, ht'⟩
    · refine ⟨'@', ?_, by decide⟩
      rw [List.getLast?_append]
      rfl
    · have hsome : (h0 :: ht' : List Char).getLast?.isSome :=
        List.getLast?_isSome.mpr (by simp)
      obtain ⟨b, hbeq⟩ := Option.isSome_iff_exists.mp hsome
      refine ⟨b, ?_, ?_⟩
      · rw [List.getLast?_append, List.getLast?_cons_cons, hbeq]
        rfl
      · refine pyStripL_last ht ?_
        rw [hhd, List.getLast?_append, List.getLast?_cons_cons, hbeq]
        rfl
  obtain ⟨b, hbeq, hbns⟩ := hlast
  rcases hhead with ⟨hu, hpre⟩ | ⟨x, xs, ys, hu, hpre⟩
  · subst hpre
    rw [List.nil_append] at hbeq ⊢
    exact pyStripL_eq_self rfl (by decide) hbeq hbns
  · subst hpre
    have hx : isSpace x = false := by
      have hcons : pyStripL val.toList = x :: (xs ++ '@' :: hd) := by
        rw [ht, hu, List.cons_append]
      exact pyStripL_head hcons
    rw [List.cons_append] at hbeq ⊢
    exact pyStripL_eq_self rfl hx hbeq hbns

theorem containsChar_iff {l : List Char} {c : Char} : l.contains c = true ↔ c ∈ l :=
  List.elem_iff

/-- `isUpi` unfolded into its conjunctive reading. -/
theorem isUpi_iff (val : String) :
    isUpi val = true ↔
      ((pyStripL val.toList).contains '@' = true ∧
       2 ≤ ((pyStripL val.toList).takeWhile neAt).length ∧
       ((pyStripL val.toList).takeWhile neAt).all isUpiChar = true ∧
       upiHandles.contains (String.mk
         ((((pyStripL val.toList).dropWhile neAt).tail.takeWhile neDot).map lowerChar))
         = true) := by
  simp only [isUpi]
  rcases h1 : (pyStripL val.toList).contains '@'
  · constructor
    · intro hf
      simp at hf
    · rintro ⟨hf, -⟩
      simp at hf
  · rcases h2 : (decide (2 ≤ ((pyStripL val.toList).takeWhile neAt).length)
        && ((pyStripL val.toList).takeWhile neAt).all isUpiChar)
    · constructor
      · intro hf
        simp at hf
      · rintro ⟨-, hlen, hall, -⟩
        have hcontr : (decide (2 ≤ ((pyStripL val.toList).takeWhile neAt).length)
            && ((pyStripL val.toList).takeWhile neAt).all isUpiChar) = true := by
          rw [decide_eq_true hlen, hall]
          rfl
        rw [h2] at hcontr
        simp at hcontr
    · obtain ⟨h2a, h2b⟩ := Bool.and_eq_true _ _ |>.mp h2
      constructor
      · intro hh
        simp only [Bool.not_true, Bool.not_false, Bool.false_eq_true, if_false, if_true] at hh
        exact ⟨rfl, by simpa using h2a, h2b, hh⟩
      · rintro ⟨-, -, -, hh⟩
        simp only [Bool.not_true, Bool.not_false, Bool.false_eq_true, if_false, if_true]
        exact hh

theorem maskUpi_decomp {val : String} (h : (pyStripL val.toList).contains '@' = true) :
    maskUpi val = String.mk (maskUser ((pyStripL val.toList).takeWhile neAt)
      ++ '@' :: ((pyStripL val.toList).dropWhile neAt).tail) := by
  unfold maskUpi
  simp only [h, Bool.not_true, Bool.false_eq_true, if_false]

theorem maskUpi_sentinel {val : String} (h : (pyStripL val.toList).contains '@' = false) :
    maskUpi val = sentinel := by
  unfold maskUpi
  simp only [h, Bool.not_false, if_true]

/-- Masking a valid UPI handle keeps it a valid UPI handle, and a second
masking is the identity on it. -/
theorem maskUpi_fix {val : String} (h : isUpi val = true) :
    isUpi (maskUpi val) = true ∧ maskUpi (maskUpi val) = maskUpi val := by
  obtain ⟨h1, hlen, hall, hhandle⟩ := (isUpi_iff val).mp h
  have hat : '@' ∈ pyStripL val.toList := containsChar_iff.mp h1
  have hteq := at_decomp hat
  have hdm := maskUpi_decomp h1
  generalize hu : (pyStripL val.toList).takeWhile neAt = u at hteq hlen hall hdm
  generalize hhd : ((pyStripL val.toList).dropWhile neAt).tail = hd at hteq hhandle hdm
  have huall : ∀ c ∈ u, isUpiChar c = true := fun c hc => List.all_eq_true.mp hall c hc
  have humask : ∀ c ∈ maskUser u, isUpiChar c = true := by
    intro c hc
    rcases maskUser_mem hc with hmem | rfl
    · exact huall c hmem
    · decide
  have hneAtm : ∀ c ∈ maskUser u, neAt c = true := fun c hc => upiChar_neAt (humask c hc)
  have hnoop : pyStripL (maskUser u ++ '@' :: hd) = maskUser u ++ '@' :: hd := by
    refine strip_noop_at hteq ?_
    rcases hu2 : u with _ | ⟨x, xs⟩
    · exact Or.inl ⟨rfl, by simp [maskUser]⟩
    · obtain ⟨ys, hys⟩ := @maskUser_head x xs
      exact Or.inr ⟨x, xs, ys, rfl, hys⟩
  have htw : (maskUser u ++ '@' :: hd).takeWhile neAt = maskUser u :=
    takeWhile_all_append _ hneAtm (by decide)
  have hdw : (maskUser u ++ '@' :: hd).dropWhile neAt = '@' :: hd :=
    dropWhile_all_append _ hneAtm (by decide)
  have hc2 : (maskUser u ++ '@' :: hd).contains '@' = true :=
    containsChar_iff.mpr (by simp)
  constructor
  · rw [hdm]
    refine (isUpi_iff _).mpr ?_
    rw [toList_mk, hnoop, htw, hdw]
    refine ⟨hc2, ?_, ?_, ?_⟩
    · rw [maskUser_length]
      exact hlen
    · exact List.all_eq_true.mpr humask
    · simpa using hhandle
  · rw [hdm]
    unfold maskUpi
    rw [toList_mk, hnoop]
    simp only [hc2, Bool.not_true, Bool.false_eq_true, if_false]
    rw [htw, hdw]
    simp only [List.tail_cons]
    rw [maskUser_idem]

theorem maskLocal_mem {l : List Char} {c : Char} (hc : c ∈ maskLocal l) :
    c ∈ l ∨ c = 'X' := by
  unfold maskLocal at hc
  by_cases h : l.length ≤ 2
  · rw [if_pos h] at hc
    rcases List.mem_append.mp hc with h1 | h2
    · exact Or.inl (List.take_subset _ _ h1)
    · exact Or.inr (List.eq_of_mem_replicate h2)
  · rw [if_neg h] at hc
    rcases List.mem_append.mp hc with h1 | h2
    · exact Or.inl (List.take_subset _ _ h1)
    · simp at h2
      exact Or.inr h2

theorem maskLocal_head {x : Char} {xs : List Char} :
    ∃ ys, maskLocal (x :: xs) = x :: ys := by
  unfold maskLocal
  by_cases h : (x :: xs).length ≤ 2
  · rw [if_pos h]
    exact ⟨_, rfl⟩
  · rw [if_neg h]
    exact ⟨_, rfl⟩

theorem maskLocal_idem (l : List Char) : maskLocal (maskLocal l) = maskLocal l := by
  by_cases h : l.length ≤ 2
  · rcases l with _ | ⟨a, t⟩
    · rfl
    · have h1 : maskLocal (a :: t) = a :: List.replicate t.length 'X' := by
        unfold maskLocal
        rw [if_pos h]
        simp
      rw [h1]
      unfold maskLocal
      rw [if_pos (by simpa using h)]
      simp
  · have h1 : maskLocal l = l.take 2 ++ ['X', 'X', 'X'] := by
      unfold maskLocal
      rw [if_neg h]
    have hAl : (l.take 2).length = 2 := by
      simp only [List.length_take]
      omega
    rw [h1]
    unfold maskLocal
    rw [if_neg (by simp [hAl])]
    rw [List.take_append_eq_append_take, hAl]
    simp [List.take_take]

theorem maskEmail_decomp {val : String} (h : (pyStripL val.toList).contains '@' = true) :
    maskEmail val = String.mk (maskLocal ((pyStripL val.toList).takeWhile neAt)
      ++ '@' :: ((pyStripL val.toList).dropWhile neAt).tail) := by
  unfold maskEmail
  simp only [h, Bool.not_true, Bool.false_eq_true, if_false]

theorem maskEmail_sentinel {val : String} (h : (pyStripL val.toList).contains '@' = false) :
    maskEmail val = sentinel := by
  unfold maskEmail
  simp only [h, Bool.not_false, if_true]

/-- A second e-mail masking is the identity (the sentinel of a value without
`'@'` has no `'@'` either, and a partially masked local part re-masks to
itself). -/
theorem maskEmail_idem (val : String) : maskEmail (maskEmail val) = maskEmail val := by
  rcases h1 : (pyStripL val.toList).contains '@'
  · rw [maskEmail_sentinel h1]
    rfl
  · have hat : '@' ∈ pyStripL val.toList := containsChar_iff.mp h1
    have hteq := at_decomp hat
    have hdm := maskEmail_decomp h1
    generalize hu : (pyStripL val.toList).takeWhile neAt = u at hteq hdm
    generalize hhd : ((pyStripL val.toList).dropWhile neAt).tail = hd at hteq hdm
    have huAt : ∀ c ∈ u, neAt c = true := by
      rw [← hu]
      exact takeWhile_neAt_all
    have hneAtm : ∀ c ∈ maskLocal u, neAt c = true := by
      intro c hc
      rcases maskLocal_mem hc with hmem | rfl
      · exact huAt c hmem
      · decide
    have hnoop : pyStripL (maskLocal u ++ '@' :: hd) = maskLocal u ++ '@' :: hd := by
      refine strip_noop_at hteq ?_
      rcases hu2 : u with _ | ⟨x, xs⟩
      · exact Or.inl ⟨rfl, by simp [maskLocal]⟩
      · obtain ⟨ys, hys⟩ := @maskLocal_head x xs
        exact Or.inr ⟨x, xs, ys, rfl, hys⟩
    have htw : (maskLocal u ++ '@' :: hd).takeWhile neAt = maskLocal u :=
      takeWhile_all_append _ hneAtm (by decide)
    have hdw : (maskLocal u ++ '@' :: hd).dropWhile neAt = '@' :: hd :=
      dropWhile_all_append _ hneAtm (by decide)
    have hc2 : (maskLocal u ++ '@' :: hd).contains '@' = true :=
      containsChar_iff.mpr (by simp)
    rw [hdm]
    unfold maskEmail
    rw [toList_mk, hnoop]
    simp only [hc2, Bool.not_true, Bool.false_eq_true, if_false]
    rw [htw, hdw]
    simp only [List.tail_cons]
    rw [maskLocal_idem]

/-! ## Name masker lemmas -/

theorem maskTok_sound {w : List Char} (hne : w ≠ []) (hns : ∀ c ∈ w, isSpace c = false) :
    maskTok w ≠ [] ∧ ∀ c ∈ maskTok w, isSpace c = false := by
  rcases w with _ | ⟨c, rest⟩
  · exact absurd rfl hne
  · refine ⟨by simp [maskTok], ?_⟩
    intro x hx
    rw [maskTok] at hx
    rcases List.mem_cons.mp hx with rfl | hmap
    · exact hns x (by simp)
    · obtain ⟨y, hy, rfl⟩ := List.mem_map.mp hmap
      decide

theorem maskTok_idem (w : List Char) : maskTok (maskTok w) = maskTok w := by
  rcases w with _ | ⟨c, rest⟩
  · rfl
  · simp [maskTok, List.map_map]

theorem maskName_of_ne {v : String} (h : splitWs (pyStripL v.toList) ≠ []) :
    maskName v = String.mk (joinWords ((splitWs (pyStripL v.toList)).map maskTok)) := by
  unfold maskName
  rw [if_neg (by simpa [List.isEmpty_iff] using h)]

/-- A second name masking is the identity. -/
theorem maskName_idem (val : String) : maskName (maskName val) = maskName val := by
  rcases hp : splitWs (pyStripL val.toList) with _ | ⟨w0, ws0⟩
  · have h1 : maskName val = val := by
      unfold maskName
      rw [hp]
      rfl
    rw [h1]
    exact h1
  · have hne : splitWs (pyStripL val.toList) ≠ [] := by rw [hp]; simp
    have h1 := maskName_of_ne hne
    have hsound := splitWs_sound (l := pyStripL val.toList)
    have hsound' : ∀ w ∈ (splitWs (pyStripL val.toList)).map maskTok,
        w ≠ [] ∧ ∀ c ∈ w, isSpace c = false := by
      intro w hw
      obtain ⟨w0', hw0, rfl⟩ := List.mem_map.mp hw
      exact maskTok_sound (hsound w0' hw0).1 (hsound w0' hw0).2
    have hp2 : splitWs (pyStripL (maskName val).toList)
        = (splitWs (pyStripL val.toList)).map maskTok := by
      rw [splitWs_pyStripL, h1, toList_mk]
      exact splitWs_join hsound'
    have hne2 : splitWs (pyStripL (maskName val).toList) ≠ [] := by
      rw [hp2, hp]
      simp
    rw [maskName_of_ne hne2, hp2, h1]
    congr 2
    rw [List.map_map]
    exact List.map_congr_left fun w hw => maskTok_idem w

/-! ## Standalone-branch lemmas -/

theorem mem_phoneKeys {k : String} (h : phoneKeys.contains k = true) :
    k = "phone" ∨ k = "contact" ∨ k = "mobile" ∨ k = "alt_phone" ∨ k = "alt_contact" := by
  have hm := List.elem_iff.mp h
  simpa [phoneKeys] using hm

theorem mem_aadharKeys {k : String} (h : aadharKeys.contains k = true) :
    k = "aadhar" ∨ k = "aadhaar" := by
  have hm := List.elem_iff.mp h
  simpa [aadharKeys] using hm

theorem mem_passportKeys {k : String} (h : passportKeys.contains k = true) :
    k = "passport" := by
  have hm := List.elem_iff.mp h
  simpa [passportKeys] using hm

theorem mem_upiKeys {k : String} (h : upiKeys.contains k = true) :
    k = "upi_id" ∨ k = "upi" ∨ k = "vpa" := by
  have hm := List.elem_iff.mp h
  simpa [upiKeys] using hm

theorem phone_only {k : String} (h : phoneKeys.contains k = true) :
    aadharKeys.contains k = false ∧ passportKeys.contains k = false ∧
    upiKeys.contains k = false := by
  rcases mem_phoneKeys h with rfl | rfl | rfl | rfl | rfl <;> exact ⟨rfl, rfl, rfl⟩

theorem aadhar_only {k : String} (h : aadharKeys.contains k = true) :
    phoneKeys.contains k = false ∧ passportKeys.contains k = false ∧
    upiKeys.contains k = false := by
  rcases mem_aadharKeys h with rfl | rfl <;> exact ⟨rfl, rfl, rfl⟩

theorem passport_only {k : String} (h : passportKeys.contains k = true) :
    phoneKeys.contains k = false ∧ aadharKeys.contains k = false ∧
    upiKeys.contains k = false := by
  rcases mem_passportKeys h with rfl
  exact ⟨rfl, rfl, rfl⟩

theorem upi_only {k : String} (h : upiKeys.contains k = true) :
    phoneKeys.contains k = false ∧ aadharKeys.contains k = false ∧
    passportKeys.contains k = false := by
  rcases mem_upiKeys h with rfl | rfl | rfl <;> exact ⟨rfl, rfl, rfl⟩

theorem alias_ne_canon {k : String}
    (h : phoneKeys.contains k = true ∨ aadharKeys.contains k = true ∨
         passportKeys.contains k = true ∨ upiKeys.contains k = true) :
    (k == "name") = false ∧ (k == "email") = false ∧ (k == "address") = false ∧
    (k == "ip_address") = false ∧ (k == "device_id") = false := by
  rcases h with h | h | h | h
  · rcases mem_phoneKeys h with rfl | rfl | rfl | rfl | rfl <;> exact ⟨rfl, rfl, rfl, rfl, rfl⟩
  · rcases mem_aadharKeys h with rfl | rfl <;> exact ⟨rfl, rfl, rfl, rfl, rfl⟩
  · rcases mem_passportKeys h with rfl
    exact ⟨rfl, rfl, rfl, rfl, rfl⟩
  · rcases mem_upiKeys h with rfl | rfl | rfl <;> exact ⟨rfl, rfl, rfl, rfl, rfl⟩

theorem standaloneMask_some {k v m : String} (h : standaloneMask k v = some m) :
    (phoneKeys.contains k = true ∧ is10DigitPhone v = true ∧ m = maskPhone v) ∨
    (aadharKeys.contains k = true ∧ isAadhar v = true ∧ m = maskAadhar v) ∨
    (passportKeys.contains k = true ∧ isPassport v = true ∧ m = maskPassport v) ∨
    (upiKeys.contains k = true ∧ isUpi v = true ∧ m = maskUpi v) := by
  unfold standaloneMask at h
  by_cases h1 : (phoneKeys.contains k && is10DigitPhone v) = true
  · rw [if_pos h1] at h
    obtain ⟨ha, hb⟩ := Bool.and_eq_true _ _ |>.mp h1
    exact Or.inl ⟨ha, hb, (Option.some.inj h).symm⟩
  · rw [if_neg h1] at h
    by_cases h2 : (aadharKeys.contains k && isAadhar v) = true
    · rw [if_pos h2] at h
      obtain ⟨ha, hb⟩ := Bool.and_eq_true _ _ |>.mp h2
      exact Or.inr (Or.inl ⟨ha, hb, (Option.some.inj h).symm⟩)
    · rw [if_neg h2] at h
      by_cases h3 : (passportKeys.contains k && isPassport v) = true
      · rw [if_pos h3] at h
        obtain ⟨ha, hb⟩ := Bool.and_eq_true _ _ |>.mp h3
        exact Or.inr (Or.inr (Or.inl ⟨ha, hb, (Option.some.inj h).symm⟩))
      · rw [if_neg h3] at h
        by_cases h4 : (upiKeys.contains k && isUpi v) = true
        · rw [if_pos h4] at h
          obtain ⟨ha, hb⟩ := Bool.and_eq_true _ _ |>.mp h4
          exact Or.inr (Or.inr (Or.inr ⟨ha, hb, (Option.some.inj h).symm⟩))
        · rw [if_neg h4] at h
          simp at h

theorem standaloneMask_none_of {k v : String}
    (h1 : phoneKeys.contains k = false) (h2 : aadharKeys.contains k = false)
    (h3 : passportKeys.contains k = false) (h4 : upiKeys.contains k = false) :
    standaloneMask k v = none := by
  unfold standaloneMask
  rw [h1, h2, h3, h4]
  rfl

theorem standaloneMask_name (v : String) : standaloneMask "name" v = none :=
  standaloneMask_none_of rfl rfl rfl rfl

theorem standaloneMask_email (v : String) : standaloneMask "email" v = none :=
  standaloneMask_none_of rfl rfl rfl rfl

theorem standaloneMask_address (v : String) : standaloneMask "address" v = none :=
  standaloneMask_none_of rfl rfl rfl rfl

theorem standaloneMask_ip (v : String) : standaloneMask "ip_address" v = none :=
  standaloneMask_none_of rfl rfl rfl rfl

theorem standaloneMask_device (v : String) : standaloneMask "device_id" v = none :=
  standaloneMask_none_of rfl rfl rfl rfl

/-- A standalone mask is itself dead or a fixed point for the standalone
branch: masking a second time changes nothing. -/
theorem standaloneMask_stable {k v m : String} (h : standaloneMask k v = some m) :
    standaloneMask k m = none ∨ standaloneMask k m = some m := by
  rcases standaloneMask_some h with ⟨hk, hc, rfl⟩ | ⟨hk, hc, rfl⟩ | ⟨hk, hc, rfl⟩ | ⟨hk, hc, rfl⟩
  · obtain ⟨ha2, ha3, ha4⟩ := phone_only hk
    left
    unfold standaloneMask
    rw [hk, maskPhone_kills hc, ha2, ha3, ha4]
    rfl
  · obtain ⟨hb1, hb3, hb4⟩ := aadhar_only hk
    left
    unfold standaloneMask
    rw [hk, maskAadhar_kills hc, hb1, hb3, hb4]
    rfl
  · obtain ⟨hc1, hc2, hc4⟩ := passport_only hk
    left
    unfold standaloneMask
    rw [hk, maskPassport_kills hc, hc1, hc2, hc4]
    rfl
  · obtain ⟨hd1, hd2, hd3⟩ := upi_only hk
    have hfix := maskUpi_fix hc
    right
    unfold standaloneMask
    rw [hk, hfix.1, hd1, hd2, hd3]
    rw [if_neg (by simp), if_neg (by simp), if_neg (by simp), if_pos (by simp)]
    rw [hfix.2]

/-! ## Per-entry redaction lemmas -/

theorem entryFix_key (kv : String × JValue) : (entryFix kv).1 = kv.1 := by
  unfold entryFix
  rcases h : standaloneMask (lowerStr kv.1) (strOfValue kv.2) with _ | m <;> simp

theorem entryFix_of_none {kv : String × JValue}
    (h : standaloneMask (lowerStr kv.1) (strOfValue kv.2) = none) : entryFix kv = kv := by
  unfold entryFix
  rw [h]

theorem entryFix_of_some {kv : String × JValue} {m : String}
    (h : standaloneMask (lowerStr kv.1) (strOfValue kv.2) = some m) :
    entryFix kv = (kv.1, .vStr m) := by
  unfold entryFix
  rw [h]

theorem entryFix_idem (kv : String × JValue) : entryFix (entryFix kv) = entryFix kv := by
  rcases h : standaloneMask (lowerStr kv.1) (strOfValue kv.2) with _ | m
  · rw [entryFix_of_none h, entryFix_of_none h]
  · rw [entryFix_of_some h]
    rcases standaloneMask_stable h with h2 | h2
    · exact entryFix_of_none (by simpa using h2)
    · rw [entryFix_of_some (by simpa using h2)]

/-- The four combinational signal predicates do not see the standalone
masking of pass one: a field the standalone branch consumed contributes
`false` before and after masking, any other field is untouched. -/
theorem entrySignals_fix (kv : String × JValue) :
    entryFullName (entryFix kv) = entryFullName kv ∧
    entryEmail (entryFix kv) = entryEmail kv ∧
    entryAddress (entryFix kv) = entryAddress kv ∧
    entryDevice (entryFix kv) = entryDevice kv := by
  rcases h : standaloneMask (lowerStr kv.1) (strOfValue kv.2) with _ | m
  · rw [entryFix_of_none h]
    exact ⟨rfl, rfl, rfl, rfl⟩
  · rw [entryFix_of_some h]
    have hor : phoneKeys.contains (lowerStr kv.1) = true ∨
        aadharKeys.contains (lowerStr kv.1) = true ∨
        passportKeys.contains (lowerStr kv.1) = true ∨
        upiKeys.contains (lowerStr kv.1) = true := by
      rcases standaloneMask_some h with ⟨hk, -, -⟩ | ⟨hk, -, -⟩ | ⟨hk, -, -⟩ | ⟨hk, -, -⟩
      · exact Or.inl hk
      · exact Or.inr (Or.inl hk)
      · exact Or.inr (Or.inr (Or.inl hk))
      · exact Or.inr (Or.inr (Or.inr hk))
    obtain ⟨hn, he, ha, hi, hd⟩ := alias_ne_canon hor
    refine ⟨?_, ?_, ?_, ?_⟩
    · unfold entryFullName
      rw [h]
      simp [hn]
    · unfold entryEmail
      rw [h]
      simp [he]
    · unfold entryAddress
      rw [h]
      simp [ha]
    · unfold entryDevice
      rw [h]
      simp [hi, hd]

theorem any_congr {α : Type} {l : List α} {p q : α → Bool}
    (h : ∀ a ∈ l, p a = q a) : l.any p = l.any q := by
  induction l with
  | nil => rfl
  | cons a t ih =>
    rw [List.any_cons, List.any_cons, h a (by simp), ih fun x hx => h x (by simp [hx])]

theorem comboHits_pass1 (r : Record) : comboHitsOf (redactPass1 r) = comboHitsOf r := by
  have hname : hasFullNameOf (redactPass1 r) = hasFullNameOf r := by
    unfold hasFullNameOf redactPass1
    rw [List.any_map]
    exact any_congr fun kv hkv => (entrySignals_fix kv).1
  have hemail : hasEmailOf (redactPass1 r) = hasEmailOf r := by
    unfold hasEmailOf redactPass1
    rw [List.any_map]
    exact any_congr fun kv hkv => (entrySignals_fix kv).2.1
  have haddr : hasAddressOf (redactPass1 r) = hasAddressOf r := by
    unfold hasAddressOf redactPass1
    rw [List.any_map]
    exact any_congr fun kv hkv => (entrySignals_fix kv).2.2.1
  have hdev : hasDeviceOrIpOf (redactPass1 r) = hasDeviceOrIpOf r := by
    unfold hasDeviceOrIpOf redactPass1
    rw [List.any_map]
    exact any_congr fun kv hkv => (entrySignals_fix kv).2.2.2
  unfold comboHitsOf
  rw [hname, hemail, haddr, hdev]

theorem isComboPii_pass1 (r : Record) : isComboPiiOf (redactPass1 r) = isComboPiiOf r := by
  unfold isComboPiiOf
  rw [comboHits_pass1]

theorem pass1_idem (r : Record) : redactPass1 (redactPass1 r) = redactPass1 r := by
  unfold redactPass1
  rw [List.map_map]
  exact List.map_congr_left fun kv _ => entryFix_idem kv

/-! ## Record lookup and assignment lemmas -/

theorem pass1_keys (r : Record) : (redactPass1 r).map Prod.fst = r.map Prod.fst := by
  unfold redactPass1
  rw [List.map_map]
  exact List.map_congr_left fun kv _ => entryFix_key kv

theorem setKey_keys (r : Record) (k : String) (v : JValue) :
    (setKey r k v).map Prod.fst = r.map Prod.fst := by
  unfold setKey
  rw [List.map_map]
  refine List.map_congr_left fun kv _ => ?_
  by_cases h : (kv.1 == k) = true
  · rw [Function.comp_apply, if_pos h]
  · rw [Function.comp_apply, if_neg h]

theorem option_map_eq {o : Option (String × JValue)} {f g : String × JValue → JValue}
    (h : ∀ kv, o = some kv → f kv = g kv) : o.map f = o.map g := by
  cases o with
  | none => rfl
  | some kv => simp [h kv rfl]

theorem getVal_map_keypres {f : String × JValue → String × JValue}
    (hf : ∀ kv, (f kv).1 = kv.1) (r : Record) (k : String) :
    getVal (r.map f) k = (r.find? fun kv => kv.1 == k).map fun kv => (f kv).2 := by
  unfold getVal
  rw [List.find?_map]
  have hcomp : ((fun kv : String × JValue => kv.1 == k) ∘ f)
      = fun kv : String × JValue => kv.1 == k := funext fun kv => by
    simp [Function.comp_apply, hf kv]
  rw [hcomp, Option.map_map]
  rfl

theorem getVal_pass1_none {r : Record} {k : String}
    (hnone : ∀ v, standaloneMask (lowerStr k) v = none) :
    getVal (redactPass1 r) k = getVal r k := by
  unfold redactPass1
  rw [getVal_map_keypres entryFix_key]
  unfold getVal
  refine option_map_eq fun kv hf => ?_
  have hp := List.find?_some hf
  have hkv : kv.1 = k := by simpa using hp
  have hfix : entryFix kv = kv := by
    unfold entryFix
    rw [hkv, hnone]
  rw [hfix]

theorem getVal_setKey_self (r : Record) (k : String) (v : JValue) :
    getVal (setKey r k v) k = (getVal r k).map fun _ => v := by
  unfold setKey
  rw [getVal_map_keypres (f := fun kv => if kv.1 == k then (kv.1, v) else kv)
    (fun kv => by
      dsimp only
      by_cases h : (kv.1 == k) = true
      · rw [if_pos h]
      · rw [if_neg h])]
  unfold getVal
  rw [Option.map_map]
  refine option_map_eq fun kv hf => ?_
  have hp := List.find?_some hf
  have hkv : (kv.1 == k) = true := by simpa using hp
  rw [if_pos hkv]
  rfl

theorem getVal_setKey_ne {k k' : String} (h : k ≠ k') (r : Record) (v : JValue) :
    getVal (setKey r k' v) k = getVal r k := by
  unfold setKey
  rw [getVal_map_keypres (f := fun kv => if kv.1 == k' then (kv.1, v) else kv)
    (fun kv => by
      dsimp only
      by_cases hx : (kv.1 == k') = true
      · rw [if_pos hx]
      · rw [if_neg hx])]
  unfold getVal
  refine option_map_eq fun kv hf => ?_
  have hp := List.find?_some hf
  have hkv : kv.1 = k := by simpa using hp
  have hne : (kv.1 == k') = false := by
    rw [hkv]
    exact beq_eq_false_iff_ne.mpr h
  rw [if_neg (by simp [hne])]

theorem mem_setKey {kv : String × JValue} {r : Record} {k : String} {v : JValue}
    (h : kv ∈ setKey r k v) : kv ∈ r ∨ (kv.1 = k ∧ kv.2 = v) := by
  unfold setKey at h
  obtain ⟨kv0, hkv0, hkv⟩ := List.mem_map.mp h
  by_cases hk : (kv0.1 == k) = true
  · rw [if_pos hk] at hkv
    right
    rw [← hkv]
    exact ⟨by simpa using hk, rfl⟩
  · rw [if_neg hk] at hkv
    left
    rw [← hkv]
    exact hkv0

theorem setKey_val {kv : String × JValue} {r : Record} {k : String} {v : JValue}
    (h : kv ∈ setKey r k v) (hk : kv.1 = k) : kv.2 = v := by
  unfold setKey at h
  obtain ⟨kv0, hkv0, hkv⟩ := List.mem_map.mp h
  by_cases hb : (kv0.1 == k) = true
  · rw [if_pos hb] at hkv
    rw [← hkv]
  · rw [if_neg hb] at hkv
    rw [← hkv] at hk
    exact absurd (beq_iff_eq.mpr hk) (by simpa using hb)

theorem mem_setKey_ne {kv : String × JValue} {r : Record} {k : String} {v : JValue}
    (h : kv ∈ setKey r k v) (hk : kv.1 ≠ k) : kv ∈ r := by
  rcases mem_setKey h with hm | ⟨he, -⟩
  · exact hm
  · exact absurd he hk

theorem setKey_id {r : Record} {k : String} {v : JValue}
    (h : ∀ kv ∈ r, kv.1 = k → kv.2 = v) : setKey r k v = r := by
  unfold setKey
  conv_rhs => rw [← List.map_id r]
  refine List.map_congr_left fun kv hkv => ?_
  by_cases hb : (kv.1 == k) = true
  · rw [if_pos hb]
    have hv := h kv hkv (by simpa using hb)
    rw [← hv]
    rfl
  · rw [if_neg hb]
    rfl

/-! ## Unfolding lemmas for the record classifier -/

theorem detect_not_combo {r : Record} (h : isComboPiiOf r = false) :
    detectAndRedact r = .ok (redactPass1 r, standaloneHitOf r) := by
  unfold detectAndRedact
  simp only [h, Bool.false_eq_true, if_false, Bool.or_false]

theorem detect_combo {r rr : Record} (hc : isComboPiiOf r = true)
    (h : comboRedact r (redactPass1 r) = .ok rr) :
    detectAndRedact r = .ok (rr, true) := by
  unfold detectAndRedact
  simp only [hc, if_true, h, Bool.or_true]

theorem detect_combo_err {r : Record} {e : Unit} (hc : isComboPiiOf r = true)
    (h : comboRedact r (redactPass1 r) = .error e) :
    detectAndRedact r = .error e := by
  unfold detectAndRedact
  simp only [hc, if_true, h]

theorem detect_ok_inv {r rr : Record} {p : Bool} (h : detectAndRedact r = .ok (rr, p)) :
    (isComboPiiOf r = false ∧ rr = redactPass1 r ∧ p = standaloneHitOf r) ∨
    (isComboPiiOf r = true ∧ comboRedact r (redactPass1 r) = .ok rr ∧ p = true) := by
  rcases hc : isComboPiiOf r
  · rw [detect_not_combo hc] at h
    obtain ⟨ha, hb⟩ := Prod.ext_iff.mp (Except.ok.inj h)
    exact Or.inl ⟨rfl, ha.symm, hb.symm⟩
  · rcases hcr : comboRedact r (redactPass1 r) with e | red
    · rw [detect_combo_err hc hcr] at h
      exact Except.noConfusion h
    · rw [detect_combo hc hcr] at h
      obtain ⟨ha, hb⟩ := Prod.ext_iff.mp (Except.ok.inj h)
      exact Or.inr ⟨rfl, congrArg Except.ok ha, hb.symm⟩

theorem comboRedact_ok_inv {data red rr : Record}
    (h : comboRedact data red = .ok rr) :
    ∃ b, addressCheck data = .ok b ∧
      rr = devStep data (ipStep data (addrStep b (emStep data (nmStep data red)))) := by
  unfold comboRedact at h
  rcases hac : addressCheck data with e | b <;> rw [hac] at h
  · exact Except.noConfusion h
  · exact ⟨b, rfl, (Except.ok.inj h).symm⟩

/-! ## Step lemmas for the combinational masking block -/

theorem nmStep_keys (data red : Record) :
    (nmStep data red).map Prod.fst = red.map Prod.fst := by
  unfold nmStep
  rcases hg : getVal data "name" with _ | v
  · rfl
  · rcases v with s | n | b | u | xs
    · dsimp only
      by_cases h : decide (2 ≤ (splitWs s.toList).length) = true
      · rw [if_pos h, setKey_keys]
      · rw [if_neg h]
    · rfl
    · rfl
    · rfl
    · rfl

theorem emStep_keys (data red : Record) :
    (emStep data red).map Prod.fst = red.map Prod.fst := by
  unfold emStep
  rcases hg : getVal data "email" with _ | v
  · rfl
  · rcases v with s | n | b | u | xs
    · dsimp only
      by_cases h : s.toList.contains '@' = true
      · rw [if_pos h, setKey_keys]
      · rw [if_neg h]
    · rfl
    · rfl
    · rfl
    · rfl

theorem addrStep_keys (b : Bool) (red : Record) :
    (addrStep b red).map Prod.fst = red.map Prod.fst := by
  unfold addrStep
  rcases b
  · rfl
  · rw [if_pos rfl, setKey_keys]

theorem ipStep_keys (data red : Record) :
    (ipStep data red).map Prod.fst = red.map Prod.fst := by
  unfold ipStep
  rcases hg : getVal data "ip_address" with _ | v
  · rfl
  · dsimp only
    by_cases h : truthy v = true
    · rw [if_pos h, setKey_keys]
    · rw [if_neg h]

theorem devStep_keys (data red : Record) :
    (devStep data red).map Prod.fst = red.map Prod.fst := by
  unfold devStep
  rcases hg : getVal data "device_id" with _ | v
  · rfl
  · dsimp only
    by_cases h : truthy v = true
    · rw [if_pos h, setKey_keys]
    · rw [if_neg h]

theorem comboRedact_keys {data red rr : Record} (h : comboRedact data red = .ok rr) :
    rr.map Prod.fst = red.map Prod.fst := by
  obtain ⟨b, -, hrr⟩ := comboRedact_ok_inv h
  rw [hrr, devStep_keys, ipStep_keys, addrStep_keys, emStep_keys, nmStep_keys]

theorem getVal_nmStep_ne {data red : Record} {k : String} (h : k ≠ "name") :
    getVal (nmStep data red) k = getVal red k := by
  unfold nmStep
  rcases hg : getVal data "name" with _ | v
  · rfl
  · rcases v with s | n | b | u | xs
    · dsimp only
      by_cases hc : decide (2 ≤ (splitWs s.toList).length) = true
      · rw [if_pos hc, getVal_setKey_ne h]
      · rw [if_neg hc]
    · rfl
    · rfl
    · rfl
    · rfl

theorem getVal_emStep_ne {data red : Record} {k : String} (h : k ≠ "email") :
    getVal (emStep data red) k = getVal red k := by
  unfold emStep
  rcases hg : getVal data "email" with _ | v
  · rfl
  · rcases v with s | n | b | u | xs
    · dsimp only
      by_cases hc : s.toList.contains '@' = true
      · rw [if_pos hc, getVal_setKey_ne h]
      · rw [if_neg hc]
    · rfl
    · rfl
    · rfl
    · rfl

theorem getVal_addrStep_ne {red : Record} {b : Bool} {k : String} (h : k ≠ "address") :
    getVal (addrStep b red) k = getVal red k := by
  unfold addrStep
  rcases b
  · rfl
  · rw [if_pos rfl, getVal_setKey_ne h]

theorem getVal_ipStep_ne {data red : Record} {k : String} (h : k ≠ "ip_address") :
    getVal (ipStep data red) k = getVal red k := by
  unfold ipStep
  rcases hg : getVal data "ip_address" with _ | v
  · rfl
  · dsimp only
    by_cases hc : truthy v = true
    · rw [if_pos hc, getVal_setKey_ne h]
    · rw [if_neg hc]

theorem getVal_devStep_ne {data red : Record} {k : String} (h : k ≠ "device_id") :
    getVal (devStep data red) k = getVal red k := by
  unfold devStep
  rcases hg : getVal data "device_id" with _ | v
  · rfl
  · dsimp only
    by_cases hc : truthy v = true
    · rw [if_pos hc, getVal_setKey_ne h]
    · rw [if_neg hc]

theorem mem_nmStep_ne {data red : Record} {kv : String × JValue}
    (h : kv ∈ nmStep data red) (hk : kv.1 ≠ "name") : kv ∈ red := by
  unfold nmStep at h
  rcases hg : getVal data "name" with _ | v <;> rw [hg] at h
  · exact h
  · rcases v with s | n | b | u | xs
    · dsimp only at h
      by_cases hc : decide (2 ≤ (splitWs s.toList).length) = true
      · rw [if_pos hc] at h
        exact mem_setKey_ne h hk
      · rwa [if_neg hc] at h
    · exact h
    · exact h
    · exact h
    · exact h

theorem mem_emStep_ne {data red : Record} {kv : String × JValue}
    (h : kv ∈ emStep data red) (hk : kv.1 ≠ "email") : kv ∈ red := by
  unfold emStep at h
  rcases hg : getVal data "email" with _ | v <;> rw [hg] at h
  · exact h
  · rcases v with s | n | b | u | xs
    · dsimp only at h
      by_cases hc : s.toList.contains '@' = true
      · rw [if_pos hc] at h
        exact mem_setKey_ne h hk
      · rwa [if_neg hc] at h
    · exact h
    · exact h
    · exact h
    · exact h

theorem mem_addrStep_ne {red : Record} {b : Bool} {kv : String × JValue}
    (h : kv ∈ addrStep b red) (hk : kv.1 ≠ "address") : kv ∈ red := by
  unfold addrStep at h
  rcases b
  · exact h
  · rw [if_pos rfl] at h
    exact mem_setKey_ne h hk

theorem mem_ipStep_ne {data red : Record} {kv : String × JValue}
    (h : kv ∈ ipStep data red) (hk : kv.1 ≠ "ip_address") : kv ∈ red := by
  unfold ipStep at h
  rcases hg : getVal data "ip_address" with _ | v <;> rw [hg] at h
  · exact h
  · dsimp only at h
    by_cases hc : truthy v = true
    · rw [if_pos hc] at h
      exact mem_setKey_ne h hk
    · rwa [if_neg hc] at h

theorem mem_devStep_ne {data red : Record} {kv : String × JValue}
    (h : kv ∈ devStep data red) (hk : kv.1 ≠ "device_id") : kv ∈ red := by
  unfold devStep at h
  rcases hg : getVal data "device_id" with _ | v <;> rw [hg] at h
  · exact h
  · dsimp only at h
    by_cases hc : truthy v = true
    · rw [if_pos hc] at h
      exact mem_setKey_ne h hk
    · rwa [if_neg hc] at h

theorem mem_comboRedact {data red rr : Record} (h : comboRedact data red = .ok rr)
    {kv : String × JValue} (hkv : kv ∈ rr) :
    kv ∈ red ∨ kv.1 = "name" ∨ kv.1 = "email" ∨ kv.1 = "address" ∨
      kv.1 = "ip_address" ∨ kv.1 = "device_id" := by
  obtain ⟨b, -, hrr⟩ := comboRedact_ok_inv h
  subst hrr
  by_cases h1 : kv.1 = "name"
  · exact Or.inr (Or.inl h1)
  by_cases h2 : kv.1 = "email"
  · exact Or.inr (Or.inr (Or.inl h2))
  by_cases h3 : kv.1 = "address"
  · exact Or.inr (Or.inr (Or.inr (Or.inl h3)))
  by_cases h4 : kv.1 = "ip_address"
  · exact Or.inr (Or.inr (Or.inr (Or.inr (Or.inl h4))))
  by_cases h5 : kv.1 = "device_id"
  · exact Or.inr (Or.inr (Or.inr (Or.inr (Or.inr h5))))
  exact Or.inl (mem_nmStep_ne (mem_emStep_ne (mem_addrStep_ne
    (mem_ipStep_ne (mem_devStep_ne hkv h5) h4) h3) h2) h1)

/-! ## Evaluation lemmas for the combinational steps -/

theorem nmStep_of_none {data red : Record} (h : getVal data "name" = none) :
    nmStep data red = red := by
  unfold nmStep
  rw [h]

theorem nmStep_of_str_lt {data red : Record} {s : String}
    (h : getVal data "name" = some (.vStr s)) (hs : ¬ 2 ≤ (splitWs s.toList).length) :
    nmStep data red = red := by
  unfold nmStep
  rw [h]
  dsimp only
  rw [if_neg (by simpa using hs)]

theorem nmStep_of_str_ge {data red : Record} {s : String}
    (h : getVal data "name" = some (.vStr s)) (hs : 2 ≤ (splitWs s.toList).length) :
    nmStep data red = setKey red "name" (.vStr (maskName s)) := by
  unfold nmStep
  rw [h]
  dsimp only
  rw [if_pos (by simpa using hs)]

theorem emStep_of_none {data red : Record} (h : getVal data "email" = none) :
    emStep data red = red := by
  unfold emStep
  rw [h]

theorem emStep_of_noat {data red : Record} {s : String}
    (h : getVal data "email" = some (.vStr s)) (hs : s.toList.contains '@' = false) :
    emStep data red = red := by
  unfold emStep
  rw [h]
  dsimp only
  rw [if_neg (by rw [hs]; simp)]

theorem emStep_of_at {data red : Record} {s : String}
    (h : getVal data "email" = some (.vStr s)) (hs : s.toList.contains '@' = true) :
    emStep data red = setKey red "email" (.vStr (maskEmail s)) := by
  unfold emStep
  rw [h]
  dsimp only
  rw [if_pos hs]

theorem addrStep_false (red : Record) : addrStep false red = red := rfl

theorem addrStep_true (red : Record) :
    addrStep true red = setKey red "address" (.vStr sentinel) := rfl

theorem ipStep_of_none {data red : Record} (h : getVal data "ip_address" = none) :
    ipStep data red = red := by
  unfold ipStep
  rw [h]

theorem ipStep_of_falsy {data red : Record} {v : JValue}
    (h : getVal data "ip_address" = some v) (ht : truthy v = false) :
    ipStep data red = red := by
  unfold ipStep
  rw [h]
  dsimp only
  rw [if_neg (by simp [ht])]

theorem ipStep_of_truthy {data red : Record} {v : JValue}
    (h : getVal data "ip_address" = some v) (ht : truthy v = true) :
    ipStep data red = setKey red "ip_address" (.vStr sentinel) := by
  unfold ipStep
  rw [h]
  dsimp only
  rw [if_pos ht]

theorem devStep_of_none {data red : Record} (h : getVal data "device_id" = none) :
    devStep data red = red := by
  unfold devStep
  rw [h]

theorem devStep_of_falsy {data red : Record} {v : JValue}
    (h : getVal data "device_id" = some v) (ht : truthy v = false) :
    devStep data red = red := by
  unfold devStep
  rw [h]
  dsimp only
  rw [if_neg (by simp [ht])]

theorem devStep_of_truthy {data red : Record} {v : JValue}
    (h : getVal data "device_id" = some v) (ht : truthy v = true) :
    devStep data red = setKey red "device_id" (.vStr sentinel) := by
  unfold devStep
  rw [h]
  dsimp only
  rw [if_pos ht]

theorem getVal_pass1_name (r : Record) :
    getVal (redactPass1 r) "name" = getVal r "name" :=
  getVal_pass1_none fun v => standaloneMask_name v

theorem getVal_pass1_email (r : Record) :
    getVal (redactPass1 r) "email" = getVal r "email" :=
  getVal_pass1_none fun v => standaloneMask_email v

theorem getVal_pass1_address (r : Record) :
    getVal (redactPass1 r) "address" = getVal r "address" :=
  getVal_pass1_none fun v => standaloneMask_address v

theorem getVal_pass1_ip (r : Record) :
    getVal (redactPass1 r) "ip_address" = getVal r "ip_address" :=
  getVal_pass1_none fun v => standaloneMask_ip v

theorem getVal_pass1_device (r : Record) :
    getVal (redactPass1 r) "device_id" = getVal r "device_id" :=
  getVal_pass1_none fun v => standaloneMask_device v

theorem entryFix_canon {kv : String × JValue}
    (h : kv.1 = "name" ∨ kv.1 = "email" ∨ kv.1 = "address" ∨ kv.1 = "ip_address" ∨
      kv.1 = "device_id") : entryFix kv = kv := by
  refine entryFix_of_none ?_
  rcases h with h | h | h | h | h <;> rw [h]
  · exact standaloneMask_name _
  · exact standaloneMask_email _
  · exact standaloneMask_address _
  · exact standaloneMask_ip _
  · exact standaloneMask_device _

theorem nmStep_of_notstr {data red : Record} {v : JValue}
    (h : getVal data "name" = some v) (hv : ∀ s, v ≠ .vStr s) :
    nmStep data red = red := by
  unfold nmStep
  rw [h]
  rcases v with s | n | bb | u | xs
  · exact absurd rfl (hv s)
  · rfl
  · rfl
  · rfl
  · rfl

theorem emStep_of_notstr {data red : Record} {v : JValue}
    (h : getVal data "email" = some v) (hv : ∀ s, v ≠ .vStr s) :
    emStep data red = red := by
  unfold emStep
  rw [h]
  rcases v with s | n | bb | u | xs
  · exact absurd rfl (hv s)
  · rfl
  · rfl
  · rfl
  · rfl

/-- After a successful combinational pass, the redacted record is a fixed
point of both the standalone pass and the combinational pass. -/
theorem comboRedact_fix {r rr : Record}
    (h : comboRedact r (redactPass1 r) = .ok rr) :
    redactPass1 rr = rr ∧ comboRedact rr rr = .ok rr := by
  obtain ⟨b, hb, hrr⟩ := comboRedact_ok_inv h
  have hpass1 : redactPass1 rr = rr := by
    unfold redactPass1
    conv_rhs => rw [← List.map_id rr]
    refine List.map_congr_left fun kv hkv => ?_
    rcases mem_comboRedact h hkv with hmem | hcanon
    · obtain ⟨kv0, hkv0, rfl⟩ := List.mem_map.mp hmem
      rw [entryFix_idem kv0]
      rfl
    · rw [entryFix_canon hcanon]
      rfl
  refine ⟨hpass1, ?_⟩
  have hname_rr : getVal rr "name" = getVal (nmStep r (redactPass1 r)) "name" := by
    rw [hrr, getVal_devStep_ne (by decide), getVal_ipStep_ne (by decide),
      getVal_addrStep_ne (by decide), getVal_emStep_ne (by decide)]
  have hnm : nmStep rr rr = rr := by
    rcases hn : getVal r "name" with _ | v
    · refine nmStep_of_none ?_
      rw [hname_rr, nmStep_of_none hn, getVal_pass1_name r]
      exact hn
    · rcases v with s | n | bb | u | xs
      case vStr =>
        by_cases hs : 2 ≤ (splitWs s.toList).length
        · have hstep := @nmStep_of_str_ge r (redactPass1 r) _ hn hs
          have hv : getVal rr "name" = some (.vStr (maskName s)) := by
            rw [hname_rr, hstep, getVal_setKey_self, getVal_pass1_name r, hn]
            rfl
          by_cases hs2 : 2 ≤ (splitWs (maskName s).toList).length
          · rw [nmStep_of_str_ge hv hs2, maskName_idem]
            refine setKey_id ?_
            intro kv hkv hk1
            rw [hrr] at hkv
            have m1 := mem_devStep_ne hkv (by rw [hk1]; decide)
            have m2 := mem_ipStep_ne m1 (by rw [hk1]; decide)
            have m3 := mem_addrStep_ne m2 (by rw [hk1]; decide)
            have m4 := mem_emStep_ne m3 (by rw [hk1]; decide)
            rw [hstep] at m4
            exact setKey_val m4 hk1
          · exact nmStep_of_str_lt hv hs2
        · have hstep := @nmStep_of_str_lt r (redactPass1 r) _ hn hs
          have hv : getVal rr "name" = some (.vStr s) := by
            rw [hname_rr, hstep, getVal_pass1_name r]
            exact hn
          exact nmStep_of_str_lt hv hs
      all_goals
        have hstep := @nmStep_of_notstr r (redactPass1 r) _ hn
          (fun s hcon => JValue.noConfusion hcon)
        have hv : getVal rr "name" = getVal r "name" := by
          rw [hname_rr, hstep, getVal_pass1_name r]
        exact nmStep_of_notstr (hv.trans hn) fun s hcon => JValue.noConfusion hcon
  have hemail_rr : getVal rr "email"
      = getVal (emStep r (nmStep r (redactPass1 r))) "email" := by
    rw [hrr, getVal_devStep_ne (by decide), getVal_ipStep_ne (by decide),
      getVal_addrStep_ne (by decide)]
  have hlower_email : getVal (nmStep r (redactPass1 r)) "email" = getVal r "email" := by
    rw [getVal_nmStep_ne (by decide), getVal_pass1_email r]
  have hem : emStep rr rr = rr := by
    rcases hn : getVal r "email" with _ | v
    · refine emStep_of_none ?_
      rw [hemail_rr, emStep_of_none hn, hlower_email]
      exact hn
    · rcases v with s | n | bb | u | xs
      case vStr =>
        rcases hat : s.toList.contains '@'
        · have hstep := @emStep_of_noat r (nmStep r (redactPass1 r)) _ hn hat
          have hv : getVal rr "email" = some (.vStr s) := by
            rw [hemail_rr, hstep, hlower_email]
            exact hn
          exact emStep_of_noat hv hat
        · have hstep := @emStep_of_at r (nmStep r (redactPass1 r)) _ hn hat
          have hv : getVal rr "email" = some (.vStr (maskEmail s)) := by
            rw [hemail_rr, hstep, getVal_setKey_self, hlower_email, hn]
            rfl
          rcases hat2 : (maskEmail s).toList.contains '@'
          · exact emStep_of_noat hv hat2
          · rw [emStep_of_at hv hat2, maskEmail_idem]
            refine setKey_id ?_
            intro kv hkv hk1
            rw [hrr] at hkv
            have m1 := mem_devStep_ne hkv (by rw [hk1]; decide)
            have m2 := mem_ipStep_ne m1 (by rw [hk1]; decide)
            have m3 := mem_addrStep_ne m2 (by rw [hk1]; decide)
            rw [hstep] at m3
            exact setKey_val m3 hk1
      all_goals
        have hstep := @emStep_of_notstr r (nmStep r (redactPass1 r)) _ hn
          (fun s hcon => JValue.noConfusion hcon)
        have hv : getVal rr "email" = getVal r "email" := by
          rw [hemail_rr, hstep, hlower_email]
        exact emStep_of_notstr (hv.trans hn) fun s hcon => JValue.noConfusion hcon
  have haddr_rr : getVal rr "address"
      = getVal (addrStep b (emStep r (nmStep r (redactPass1 r)))) "address" := by
    rw [hrr, getVal_devStep_ne (by decide), getVal_ipStep_ne (by decide)]
  have hlower_addr : getVal (emStep r (nmStep r (redactPass1 r))) "address"
      = getVal r "address" := by
    rw [getVal_emStep_ne (by decide), getVal_nmStep_ne (by decide), getVal_pass1_address r]
  have hacheck : addressCheck rr = .ok false := by
    rcases ha : getVal r "address" with _ | v
    · have hbf : b = false := by
        unfold addressCheck at hb
        rw [ha] at hb
        exact (Except.ok.inj hb).symm
      have hv : getVal rr "address" = none := by
        rw [haddr_rr, hbf, addrStep_false, hlower_addr]
        exact ha
      unfold addressCheck
      rw [hv]
    · rcases hbv : b
      · have hlv : looksLikeAddressV v = .ok false := by
          unfold addressCheck at hb
          rw [ha] at hb
          rw [hbv] at hb
          exact hb
        have hv : getVal rr "address" = some v := by
          rw [haddr_rr, hbv, addrStep_false, hlower_addr]
          exact ha
        unfold addressCheck
        rw [hv]
        exact hlv
      · have hv : getVal rr "address" = some (.vStr sentinel) := by
          rw [haddr_rr, hbv, addrStep_true, getVal_setKey_self, hlower_addr, ha]
          rfl
        unfold addressCheck
        rw [hv]
        rfl
  have hip_rr : getVal rr "ip_address"
      = getVal (ipStep r (addrStep b (emStep r (nmStep r (redactPass1 r))))) "ip_address" := by
    rw [hrr, getVal_devStep_ne (by decide)]
  have hlower_ip : getVal (addrStep b (emStep r (nmStep r (redactPass1 r)))) "ip_address"
      = getVal r "ip_address" := by
    rw [getVal_addrStep_ne (by decide), getVal_emStep_ne (by decide),
      getVal_nmStep_ne (by decide), getVal_pass1_ip r]
  have hip : ipStep rr rr = rr := by
    rcases hi : getVal r "ip_address" with _ | v
    · refine ipStep_of_none ?_
      rw [hip_rr, ipStep_of_none hi, hlower_ip]
      exact hi
    · rcases htv : truthy v
      · have hv : getVal rr "ip_address" = some v := by
          rw [hip_rr, ipStep_of_falsy hi htv, hlower_ip]
          exact hi
        exact ipStep_of_falsy hv htv
      · have hstep := @ipStep_of_truthy r
          (addrStep b (emStep r (nmStep r (redactPass1 r)))) _ hi htv
        have hv : getVal rr "ip_address" = some (.vStr sentinel) := by
          rw [hip_rr, hstep, getVal_setKey_self, hlower_ip, hi]
          rfl
        rw [ipStep_of_truthy hv (by rfl)]
        refine setKey_id ?_
        intro kv hkv hk1
        rw [hrr] at hkv
        have m1 := mem_devStep_ne hkv (by rw [hk1]; decide)
        rw [hstep] at m1
        exact setKey_val m1 hk1
  have hlower_dev : getVal (ipStep r (addrStep b (emStep r (nmStep r (redactPass1 r)))))
      "device_id" = getVal r "device_id" := by
    rw [getVal_ipStep_ne (by decide), getVal_addrStep_ne (by decide),
      getVal_emStep_ne (by decide), getVal_nmStep_ne (by decide), getVal_pass1_device r]
  have hdev : devStep rr rr = rr := by
    rcases hd : getVal r "device_id" with _ | v
    · refine devStep_of_none ?_
      rw [hrr, devStep_of_none hd, hlower_dev]
      exact hd
    · rcases htv : truthy v
      · have hv : getVal rr "device_id" = some v := by
          rw [hrr, devStep_of_falsy hd htv, hlower_dev]
          exact hd
        exact devStep_of_falsy hv htv
      · have hstep := @devStep_of_truthy r
          (ipStep r (addrStep b (emStep r (nmStep r (redactPass1 r))))) _ hd htv
        have hv : getVal rr "device_id" = some (.vStr sentinel) := by
          rw [hrr, hstep, getVal_setKey_self, hlower_dev, hd]
          rfl
        rw [devStep_of_truthy hv (by rfl)]
        refine setKey_id ?_
        intro kv hkv hk1
        rw [hrr, hstep] at hkv
        exact setKey_val hkv hk1
  unfold comboRedact
  rw [hacheck, hnm, hem]
  dsimp only
  rw [addrStep_false, hip, hdev]

/-! ## Positional frame lemmas -/

theorem getElem_pass1 (r : Record) (i : Nat) :
    (redactPass1 r)[i]? = (r[i]?).map entryFix := by
  unfold redactPass1
  exact List.getElem?_map entryFix r i

theorem getElem_setKey_ne {red : Record} {k : String} {v : JValue} {i : Nat}
    {kv : String × JValue} (hred : red[i]? = some kv) (hk : kv.1 ≠ k) :
    (setKey red k v)[i]? = some kv := by
  unfold setKey
  rw [List.getElem?_map, hred, Option.map_some']
  rw [if_neg (by simp [hk])]

theorem getElem_nmStep {data red : Record} {i : Nat} {kv : String × JValue}
    (hred : red[i]? = some kv) (hk : kv.1 ≠ "name") :
    (nmStep data red)[i]? = some kv := by
  unfold nmStep
  rcases hg : getVal data "name" with _ | v
  · exact hred
  · rcases v with s | n | bb | u | xs
    · dsimp only
      by_cases hc : decide (2 ≤ (splitWs s.toList).length) = true
      · rw [if_pos hc]
        exact getElem_setKey_ne hred hk
      · rw [if_neg hc]
        exact hred
    · exact hred
    · exact hred
    · exact hred
    · exact hred

theorem getElem_emStep {data red : Record} {i : Nat} {kv : String × JValue}
    (hred : red[i]? = some kv) (hk : kv.1 ≠ "email") :
    (emStep data red)[i]? = some kv := by
  unfold emStep
  rcases hg : getVal data "email" with _ | v
  · exact hred
  · rcases v with s | n | bb | u | xs
    · dsimp only
      by_cases hc : s.toList.contains '@' = true
      · rw [if_pos hc]
        exact getElem_setKey_ne hred hk
      · rw [if_neg hc]
        exact hred
    · exact hred
    · exact hred
    · exact hred
    · exact hred

theorem getElem_addrStep {red : Record} {b : Bool} {i : Nat} {kv : String × JValue}
    (hred : red[i]? = some kv) (hk : kv.1 ≠ "address") :
    (addrStep b red)[i]? = some kv := by
  unfold addrStep
  rcases b
  · exact hred
  · rw [if_pos rfl]
    exact getElem_setKey_ne hred hk

theorem getElem_ipStep {data red : Record} {i : Nat} {kv : String × JValue}
    (hred : red[i]? = some kv) (hk : kv.1 ≠ "ip_address") :
    (ipStep data red)[i]? = some kv := by
  unfold ipStep
  rcases hg : getVal data "ip_address" with _ | v
  · exact hred
  · dsimp only
    by_cases hc : truthy v = true
    · rw [if_pos hc]
      exact getElem_setKey_ne hred hk
    · rw [if_neg hc]
      exact hred

theorem getElem_devStep {data red : Record} {i : Nat} {kv : String × JValue}
    (hred : red[i]? = some kv) (hk : kv.1 ≠ "device_id") :
    (devStep data red)[i]? = some kv := by
  unfold devStep
  rcases hg : getVal data "device_id" with _ | v
  · exact hred
  · dsimp only
    by_cases hc : truthy v = true
    · rw [if_pos hc]
      exact getElem_setKey_ne hred hk
    · rw [if_neg hc]
      exact hred

theorem getElem_comboRedact_ne {data red rr : Record} (h : comboRedact data red = .ok rr)
    {i : Nat} {kv : String × JValue} (hred : red[i]? = some kv)
    (h1 : kv.1 ≠ "name") (h2 : kv.1 ≠ "email") (h3 : kv.1 ≠ "address")
    (h4 : kv.1 ≠ "ip_address") (h5 : kv.1 ≠ "device_id") :
    rr[i]? = some kv := by
  obtain ⟨b, -, hrr⟩ := comboRedact_ok_inv h
  rw [hrr]
  exact getElem_devStep (getElem_ipStep (getElem_addrStep
    (getElem_emStep (getElem_nmStep hred h1) h2) h3) h4) h5

theorem length_comboRedact {data red rr : Record} (h : comboRedact data red = .ok rr) :
    rr.length = red.length := by
  have hk := comboRedact_keys h
  rw [← List.length_map rr Prod.fst, hk, List.length_map]

theorem length_pass1 (r : Record) : (redactPass1 r).length = r.length := by
  unfold redactPass1
  exact List.length_map r entryFix

/-- One entry's standalone mask and combinational signals are unchanged by
a relabelling that preserves the lower-cased key. -/
theorem entry_relabel {f : String → String} (hf : ∀ k, lowerStr (f k) = lowerStr k)
    (kv : String × JValue) :
    standaloneMask (lowerStr (f kv.1)) (strOfValue kv.2)
        = standaloneMask (lowerStr kv.1) (strOfValue kv.2) ∧
    entryFullName (f kv.1, kv.2) = entryFullName kv ∧
    entryEmail (f kv.1, kv.2) = entryEmail kv ∧
    entryAddress (f kv.1, kv.2) = entryAddress kv ∧
    entryDevice (f kv.1, kv.2) = entryDevice kv := by
  refine ⟨by rw [hf], ?_, ?_, ?_, ?_⟩
  · unfold entryFullName
    dsimp only
    rw [hf]
  · unfold entryEmail
    dsimp only
    rw [hf]
  · unfold entryAddress
    dsimp only
    rw [hf]
  · unfold entryDevice
    dsimp only
    rw [hf]

theorem capName_lower (k : String) : lowerStr (capName k) = lowerStr k := by
  unfold capName
  by_cases h : (k == "name") = true
  · rw [if_pos h, eq_of_beq h]
    rfl
  · rw [if_neg h]

/-! ## The claims -/

/-- C3, counterexample: `maskUpi` applied to a value that fails `isUpi`
(unknown handle) returns a partial mask, not the generic sentinel, so the
claim that every masker returns the sentinel on classifier failure is false
at `"someone@unknownbank"`. -/
theorem claim3_counterexample :
    isUpi "someone@unknownbank" = false ∧
    maskUpi "someone@unknownbank" = "soXXXne@unknownbank" ∧
    "soXXXne@unknownbank" ≠ sentinel :=
  ⟨rfl, rfl, by decide⟩

/-- C3, amended: the Phone, NationalID and Passport maskers return the
sentinel whenever their classifier fails, and the Email masker whenever the
value has no `'@'`; the PaymentHandle masker however returns the sentinel
exactly when the stripped value has no `'@'` — a value with `'@'` but an
unknown handle is partially masked. -/
theorem claim3_amended :
    (∀ v, is10DigitPhone v = false → maskPhone v = sentinel) ∧
    (∀ v, isAadhar v = false → maskAadhar v = sentinel) ∧
    (∀ v, isPassport v = false → maskPassport v = sentinel) ∧
    (∀ v, v.toList.contains '@' = false → maskEmail v = sentinel) ∧
    (∀ v, maskUpi v = sentinel ↔ (pyStripL v.toList).contains '@' = false) := by
  refine ⟨?_, ?_, ?_, ?_, ?_⟩
  · intro v hv
    unfold maskPhone
    rw [if_pos (by simpa [is10DigitPhone] using hv)]
  · intro v hv
    unfold maskAadhar
    rw [if_pos (by simpa [isAadhar] using hv)]
  · intro v hv
    unfold maskPassport
    simp only [isPassport_strip, hv, Bool.not_false, if_true]
  · intro v hv
    refine maskEmail_sentinel ?_
    rcases hc : (pyStripL v.toList).contains '@'
    · rfl
    · have hm := mem_pyStripL (containsChar_iff.mp hc)
      rw [containsChar_iff.mpr hm] at hv
      exact absurd hv (by simp)
  · intro v
    constructor
    · intro hm
      rcases hc : (pyStripL v.toList).contains '@'
      · rfl
      · rw [maskUpi_decomp hc] at hm
        have hl := congrArg String.toList hm
        rw [toList_mk] at hl
        have hat : '@' ∈ sentinel.toList := by
          rw [← hl]
          simp
        exact absurd hat (by decide)
    · exact maskUpi_sentinel

/-- C3, witness: the amended masker guarantees at concrete failing inputs. -/
theorem claim3_witness :
    maskPhone "abc" = sentinel ∧ maskAadhar "abc" = sentinel ∧
    maskPassport "X99" = sentinel ∧ maskEmail "nope" = sentinel ∧
    maskUpi "nope" = sentinel :=
  ⟨claim3_amended.1 "abc" rfl, claim3_amended.2.1 "abc" rfl,
   claim3_amended.2.2.1 "X99" rfl, claim3_amended.2.2.2.1 "nope" rfl,
   (claim3_amended.2.2.2.2 "nope").mpr rfl⟩

/-- C4, counterexample: a non-string value is serialized by `json.dumps`
and classified through that text, so the integer `9876543210` under the
`phone` field is a standalone hit and is masked — the claim that non-string
values never match is false. -/
theorem claim4_counterexample :
    detectAndRedact [("phone", JValue.vNum 9876543210)]
      = .ok ([("phone", JValue.vStr "98XXXXXX10")], true) := rfl

/-- C4, amended: null and empty-string values are non-matching for the
standalone branch and activate no combinational signal; other non-string
values are serialized with `json.dumps` and classified by that text, which
can match (see the counterexample). -/
theorem claim4_amended :
    ∀ (key : String) (v : JValue), (v = JValue.vNull ∨ v = JValue.vStr "") →
      standaloneMask (lowerStr key) (strOfValue v) = none ∧
      entryFullName (key, v) = false ∧ entryEmail (key, v) = false ∧
      entryAddress (key, v) = false ∧ entryDevice (key, v) = false := by
  have hmask : ∀ k : String, standaloneMask k "" = none := by
    intro k
    unfold standaloneMask
    rw [show is10DigitPhone "" = false from rfl, show isAadhar "" = false from rfl,
      show isPassport "" = false from rfl, show isUpi "" = false from rfl]
    simp
  intro key v hv
  have hstr : strOfValue v = "" := by
    rcases hv with rfl | rfl <;> rfl
  refine ⟨by rw [hstr]; exact hmask _, ?_, ?_, ?_, ?_⟩
  · unfold entryFullName
    dsimp only
    rw [hstr, show decide (2 ≤ (splitWs ("" : String).toList).length) = false from rfl,
      Bool.and_false]
  · unfold entryEmail
    dsimp only
    rw [hstr, show ("" : String).toList.contains '@' = false from rfl, Bool.and_false]
  · unfold entryAddress
    dsimp only
    rw [hstr, show looksLikeAddress "" = false from rfl, Bool.and_false]
  · unfold entryDevice
    dsimp only
    rw [hstr, show (!(("" : String) == "") && !(("" : String) == "0.0.0.0")) = false from rfl,
      Bool.and_false]

/-- C4, witness: the amended statement at a concrete null-valued field. -/
theorem claim4_witness :
    standaloneMask (lowerStr "phone") (strOfValue JValue.vNull) = none ∧
    entryFullName ("phone", JValue.vNull) = false ∧
    entryEmail ("phone", JValue.vNull) = false ∧
    entryAddress ("phone", JValue.vNull) = false ∧
    entryDevice ("phone", JValue.vNull) = false :=
  claim4_amended "phone" JValue.vNull (Or.inl rfl)

/-- C7, counterexample: `isUpi` accepts a value with two `'@'` characters
(the split is at the first `'@'` only), so "contains exactly one `@`" is
wrong. -/
theorem claim7_counterexample :
    isUpi "ab@upi.x@y" = true ∧
    ("ab@upi.x@y".toList.filter fun c => c == '@').length = 2 :=
  ⟨rfl, rfl⟩

/-- C7, amended: `isUpi` holds exactly when the trimmed value contains at
least one `'@'`, the local part before the first `'@'` matches
`[A-Za-z0-9._-]{2,}`, and the handle after the first `'@'`, cut at its
first `'.'` and lowercased, is in the allow-list; in particular
`isUpi "someone@upi" = true` and `isUpi "someone@unknownbank" = false`. -/
theorem claim7_amended :
    isUpi "someone@upi" = true ∧ isUpi "someone@unknownbank" = false ∧
    ∀ v, (isUpi v = true ↔ upiSpecAmended v) := by
  refine ⟨rfl, rfl, ?_⟩
  intro v
  rw [isUpi_iff]
  unfold upiSpecAmended
  constructor
  · rintro ⟨h1, h2, h3, h4⟩
    exact ⟨containsChar_iff.mp h1, h2, List.all_eq_true.mp h3, List.elem_iff.mp h4⟩
  · rintro ⟨h1, h2, h3, h4⟩
    exact ⟨containsChar_iff.mpr h1, h2, List.all_eq_true.mpr h3, List.elem_iff.mpr h4⟩

/-- C7, witness: the amended characterization evaluated at the two spec
examples. -/
theorem claim7_witness :
    upiSpecAmended "someone@upi" ∧ ¬ upiSpecAmended "someone@unknownbank" :=
  ⟨(claim7_amended.2.2 "someone@upi").mp rfl,
   fun hcon => by
     have := (claim7_amended.2.2 "someone@unknownbank").mpr hcon
     rw [claim7_amended.2.1] at this
     exact absurd this (by simp)⟩

/-- C8: the spec's worked example — phone masked standalone, name and
e-mail masked by the two active combinational signals, overall PII true. -/
theorem claim8_example :
    detectAndRedact [("name", JValue.vStr "Ravi Kumar"),
        ("email", JValue.vStr "ravi@example.com"), ("phone", JValue.vStr "9876543210")]
      = .ok ([("name", JValue.vStr "RXXX KXXXX"),
        ("email", JValue.vStr "raXXX@example.com"),
        ("phone", JValue.vStr "98XXXXXX10")], true) := rfl

/-- C5: classification is idempotent on the redacted record — whenever
`detectAndRedact` returns a redacted record `rr`, running it again on `rr`
succeeds and leaves `rr` unchanged. -/
theorem claim5_idempotent {r rr : Record} {p : Bool}
    (h : detectAndRedact r = .ok (rr, p)) :
    ∃ q, detectAndRedact rr = .ok (rr, q) := by
  rcases detect_ok_inv h with ⟨hc, hrr, -⟩ | ⟨-, hcr, -⟩
  · subst hrr
    refine ⟨standaloneHitOf (redactPass1 r), ?_⟩
    have hc2 : isComboPiiOf (redactPass1 r) = false := by
      rw [isComboPii_pass1]
      exact hc
    rw [detect_not_combo hc2, pass1_idem]
  · obtain ⟨hp1, hfix⟩ := comboRedact_fix hcr
    rcases hc2 : isComboPiiOf rr
    · refine ⟨standaloneHitOf rr, ?_⟩
      rw [detect_not_combo hc2, hp1]
    · refine ⟨true, detect_combo hc2 ?_⟩
      rw [hp1]
      exact hfix

/-- C5, witness: idempotence at a concrete masked phone record. -/
theorem claim5_witness :
    ∃ q, detectAndRedact [("phone", JValue.vStr "98XXXXXX10")]
      = .ok ([("phone", JValue.vStr "98XXXXXX10")], q) :=
  @claim5_idempotent [("phone", JValue.vStr "9876543210")]
    [("phone", JValue.vStr "98XXXXXX10")] true rfl

/-- C6: whenever `detectAndRedact` succeeds, the redacted record has the
same keys in the same order as the input — only values are replaced. -/
theorem claim6_keys {r rr : Record} {p : Bool} (h : detectAndRedact r = .ok (rr, p)) :
    rr.map Prod.fst = r.map Prod.fst := by
  rcases detect_ok_inv h with ⟨-, hrr, -⟩ | ⟨-, hcr, -⟩
  · rw [hrr, pass1_keys]
  · rw [comboRedact_keys hcr, pass1_keys]

/-- C6, witness: key preservation on a record that takes the combinational
path. -/
theorem claim6_witness :
    ([("name", JValue.vStr "RXXX KXXXX"), ("email", JValue.vStr "raXXX@example.com"),
      ("phone", JValue.vStr "98XXXXXX10")] : Record).map Prod.fst
    = ([("name", JValue.vStr "Ravi Kumar"), ("email", JValue.vStr "ravi@example.com"),
      ("phone", JValue.vStr "9876543210")] : Record).map Prod.fst :=
  @claim6_keys
    [("name", JValue.vStr "Ravi Kumar"), ("email", JValue.vStr "ravi@example.com"),
      ("phone", JValue.vStr "9876543210")]
    [("name", JValue.vStr "RXXX KXXXX"), ("email", JValue.vStr "raXXX@example.com"),
      ("phone", JValue.vStr "98XXXXXX10")] true rfl

/-- C9: a field whose lower-cased key is a standalone alias but whose value
fails every classifier its key selects is passed through unchanged, at the
same position, in the redacted record. -/
theorem claim9_alias_mismatch {r rr : Record} {p : Bool} {i : Nat}
    {kv : String × JValue}
    (h : detectAndRedact r = .ok (rr, p)) (hi : r[i]? = some kv)
    (hk : phoneKeys.contains (lowerStr kv.1) = true ∨
          aadharKeys.contains (lowerStr kv.1) = true ∨
          passportKeys.contains (lowerStr kv.1) = true ∨
          upiKeys.contains (lowerStr kv.1) = true)
    (hv1 : phoneKeys.contains (lowerStr kv.1) = true →
      is10DigitPhone (strOfValue kv.2) = false)
    (hv2 : aadharKeys.contains (lowerStr kv.1) = true →
      isAadhar (strOfValue kv.2) = false)
    (hv3 : passportKeys.contains (lowerStr kv.1) = true →
      isPassport (strOfValue kv.2) = false)
    (hv4 : upiKeys.contains (lowerStr kv.1) = true →
      isUpi (strOfValue kv.2) = false) :
    rr[i]? = some kv := by
  have hmask : standaloneMask (lowerStr kv.1) (strOfValue kv.2) = none := by
    rcases hsm : standaloneMask (lowerStr kv.1) (strOfValue kv.2) with _ | m
    · rfl
    · exfalso
      rcases standaloneMask_some hsm with ⟨ha, hb, -⟩ | ⟨ha, hb, -⟩ | ⟨ha, hb, -⟩ | ⟨ha, hb, -⟩
      · rw [hv1 ha] at hb
        exact Bool.false_ne_true hb
      · rw [hv2 ha] at hb
        exact Bool.false_ne_true hb
      · rw [hv3 ha] at hb
        exact Bool.false_ne_true hb
      · rw [hv4 ha] at hb
        exact Bool.false_ne_true hb
  have hcanon := alias_ne_canon hk
  have hne1 : kv.1 ≠ "name" := by
    intro he
    have hb : (lowerStr kv.1 == "name") = true := by rw [he]; rfl
    rw [hcanon.1] at hb
    exact Bool.false_ne_true hb
  have hne2 : kv.1 ≠ "email" := by
    intro he
    have hb : (lowerStr kv.1 == "email") = true := by rw [he]; rfl
    rw [hcanon.2.1] at hb
    exact Bool.false_ne_true hb
  have hne3 : kv.1 ≠ "address" := by
    intro he
    have hb : (lowerStr kv.1 == "address") = true := by rw [he]; rfl
    rw [hcanon.2.2.1] at hb
    exact Bool.false_ne_true hb
  have hne4 : kv.1 ≠ "ip_address" := by
    intro he
    have hb : (lowerStr kv.1 == "ip_address") = true := by rw [he]; rfl
    rw [hcanon.2.2.2.1] at hb
    exact Bool.false_ne_true hb
  have hne5 : kv.1 ≠ "device_id" := by
    intro he
    have hb : (lowerStr kv.1 == "device_id") = true := by rw [he]; rfl
    rw [hcanon.2.2.2.2] at hb
    exact Bool.false_ne_true hb
  have hp1 : (redactPass1 r)[i]? = some kv := by
    rw [getElem_pass1, hi, Option.map_some', entryFix_of_none hmask]
  rcases detect_ok_inv h with ⟨-, hrr, -⟩ | ⟨-, hcr, -⟩
  · rw [hrr]
    exact hp1
  · exact getElem_comboRedact_ne hcr hp1 hne1 hne2 hne3 hne4 hne5

/-- C9, witness: a 5-digit value under the phone key passes through at its
position. -/
theorem claim9_witness :
    ([("phone", JValue.vStr "12345")] : Record)[0]? = some ("phone", JValue.vStr "12345") :=
  @claim9_alias_mismatch [("phone", JValue.vStr "12345")]
    [("phone", JValue.vStr "12345")] false 0 ("phone", JValue.vStr "12345")
    rfl rfl (Or.inl rfl) (fun _ => rfl) (fun _ => rfl) (fun _ => rfl) (fun _ => rfl)

/-- C10: when `detectAndRedact` reports no PII, the redacted record equals
the input record — nothing is modified. -/
theorem claim10_no_pii_frame {r rr : Record} (h : detectAndRedact r = .ok (rr, false)) :
    rr = r := by
  rcases detect_ok_inv h with ⟨-, hrr, hp⟩ | ⟨-, -, hp⟩
  · have hhit : standaloneHitOf r = false := hp.symm
    unfold standaloneHitOf at hhit
    rw [hrr]
    unfold redactPass1
    have hid : ∀ kv ∈ r, entryFix kv = kv := by
      intro kv hkv
      rcases hsm : standaloneMask (lowerStr kv.1) (strOfValue kv.2) with _ | m
      · exact entryFix_of_none hsm
      · exfalso
        have hany : r.any
            (fun kv => (standaloneMask (lowerStr kv.1) (strOfValue kv.2)).isSome) = true :=
          List.any_eq_true.mpr ⟨kv, hkv, by rw [hsm]; rfl⟩
        rw [hhit] at hany
        exact Bool.false_ne_true hany
    exact (List.map_congr_left hid).trans (List.map_id r)
  · exact absurd hp Bool.false_ne_true

/-- C10, witness: a PII-free record is returned verbatim. -/
theorem claim10_witness :
    ([("note", JValue.vStr "hello")] : Record) = [("note", JValue.vStr "hello")] :=
  @claim10_no_pii_frame [("note", JValue.vStr "hello")] [("note", JValue.vStr "hello")] rfl

/-- C1, counterexample: the device/IP signal is indeed inactive for the
placeholder `"0.0.0.0"`, yet once two other signals trigger combinational
masking the `device_id` field is masked anyway (lines 167-169 test only
truthiness, not the signal), so "its value is left unmasked" is false. -/
theorem claim1_counterexample :
    entryDevice ("device_id", JValue.vStr "0.0.0.0") = false ∧
    detectAndRedact [("name", JValue.vStr "Ravi Kumar"),
        ("email", JValue.vStr "ravi@example.com"), ("device_id", JValue.vStr "0.0.0.0")]
      = .ok ([("name", JValue.vStr "RXXX KXXXX"),
        ("email", JValue.vStr "raXXX@example.com"),
        ("device_id", JValue.vStr sentinel)], true) :=
  ⟨rfl, rfl⟩

/-- C1, amended: the `"0.0.0.0"` placeholder only deactivates the device/IP
combinational signal; when combinational redaction triggers, any truthy
`ip_address` value and any truthy `device_id` value — including the
placeholder — is replaced by the sentinel. -/
theorem claim1_amended {r rr : Record} (h : detectAndRedact r = .ok (rr, true))
    (hc : isComboPiiOf r = true) :
    (∀ v, getVal r "ip_address" = some v → truthy v = true →
      getVal rr "ip_address" = some (JValue.vStr sentinel)) ∧
    (∀ v, getVal r "device_id" = some v → truthy v = true →
      getVal rr "device_id" = some (JValue.vStr sentinel)) := by
  rcases detect_ok_inv h with ⟨hcf, -, -⟩ | ⟨-, hcr, -⟩
  · rw [hcf] at hc
    exact absurd hc Bool.false_ne_true
  · obtain ⟨b, -, hrr⟩ := comboRedact_ok_inv hcr
    constructor
    · intro v hip htr
      rw [hrr, getVal_devStep_ne (by decide), ipStep_of_truthy hip htr, getVal_setKey_self]
      have hg : getVal (addrStep b (emStep r (nmStep r (redactPass1 r))))
          "ip_address" = some v := by
        rw [getVal_addrStep_ne (by decide), getVal_emStep_ne (by decide),
          getVal_nmStep_ne (by decide), getVal_pass1_ip r]
        exact hip
      rw [hg]
      rfl
    · intro v hdev htr
      rw [hrr, devStep_of_truthy hdev htr, getVal_setKey_self]
      have hg : getVal (ipStep r (addrStep b (emStep r (nmStep r (redactPass1 r)))))
          "device_id" = some v := by
        rw [getVal_ipStep_ne (by decide), getVal_addrStep_ne (by decide),
          getVal_emStep_ne (by decide), getVal_nmStep_ne (by decide), getVal_pass1_device r]
        exact hdev
      rw [hg]
      rfl

/-- C1, witness: the amended behaviour at a record carrying the placeholder
under both `ip_address` and `device_id`. -/
theorem claim1_witness :
    getVal [("name", JValue.vStr "RXXX KXXXX"), ("email", JValue.vStr "raXXX@example.com"),
      ("ip_address", JValue.vStr sentinel), ("device_id", JValue.vStr sentinel)]
      "ip_address" = some (JValue.vStr sentinel) ∧
    getVal [("name", JValue.vStr "RXXX KXXXX"), ("email", JValue.vStr "raXXX@example.com"),
      ("ip_address", JValue.vStr sentinel), ("device_id", JValue.vStr sentinel)]
      "device_id" = some (JValue.vStr sentinel) :=
  ⟨(@claim1_amended
      [("name", JValue.vStr "Ravi Kumar"), ("email", JValue.vStr "ravi@example.com"),
        ("ip_address", JValue.vStr "0.0.0.0"), ("device_id", JValue.vStr "0.0.0.0")]
      [("name", JValue.vStr "RXXX KXXXX"), ("email", JValue.vStr "raXXX@example.com"),
        ("ip_address", JValue.vStr sentinel), ("device_id", JValue.vStr sentinel)]
      rfl rfl).1 (JValue.vStr "0.0.0.0") rfl rfl,
   (@claim1_amended
      [("name", JValue.vStr "Ravi Kumar"), ("email", JValue.vStr "ravi@example.com"),
        ("ip_address", JValue.vStr "0.0.0.0"), ("device_id", JValue.vStr "0.0.0.0")]
      [("name", JValue.vStr "RXXX KXXXX"), ("email", JValue.vStr "raXXX@example.com"),
        ("ip_address", JValue.vStr sentinel), ("device_id", JValue.vStr sentinel)]
      rfl rfl).2 (JValue.vStr "0.0.0.0") rfl rfl⟩

/-- C2, counterexample: classification is case-insensitive, but the
combinational masking step looks up the exact lower-case keys, so a record
with key `"Name"` activates the full-name signal yet keeps its value
unmasked, while the same record with key `"name"` gets it masked. -/
theorem claim2_counterexample :
    detectAndRedact [("Name", JValue.vStr "Ravi Kumar"),
        ("email", JValue.vStr "ravi@example.com")]
      = .ok ([("Name", JValue.vStr "Ravi Kumar"),
        ("email", JValue.vStr "raXXX@example.com")], true) ∧
    detectAndRedact [("name", JValue.vStr "Ravi Kumar"),
        ("email", JValue.vStr "ravi@example.com")]
      = .ok ([("name", JValue.vStr "RXXX KXXXX"),
        ("email", JValue.vStr "raXXX@example.com")], true) :=
  ⟨rfl, rfl⟩

/-- C2, amended: classification and the standalone redaction pass are
case-insensitive — any relabelling of keys that preserves their lower-cased
form preserves the standalone hit flag, the combinational hit count, the
combinational trigger, and commutes with the standalone redaction pass;
the combinational masking assignments, however, target only the exact
lower-case keys (see the counterexample). -/
theorem claim2_amended {f : String → String} (hf : ∀ k, lowerStr (f k) = lowerStr k)
    (r : Record) :
    standaloneHitOf (relabel f r) = standaloneHitOf r ∧
    comboHitsOf (relabel f r) = comboHitsOf r ∧
    isComboPiiOf (relabel f r) = isComboPiiOf r ∧
    redactPass1 (relabel f r) = relabel f (redactPass1 r) := by
  have hhit : standaloneHitOf (relabel f r) = standaloneHitOf r := by
    unfold standaloneHitOf relabel
    rw [List.any_map]
    refine any_congr fun kv hkv => ?_
    show (standaloneMask (lowerStr (f kv.1)) (strOfValue kv.2)).isSome
      = (standaloneMask (lowerStr kv.1) (strOfValue kv.2)).isSome
    rw [hf]
  have h1 : hasFullNameOf (relabel f r) = hasFullNameOf r := by
    unfold hasFullNameOf relabel
    rw [List.any_map]
    exact any_congr fun kv hkv => (entry_relabel hf kv).2.1
  have h2 : hasEmailOf (relabel f r) = hasEmailOf r := by
    unfold hasEmailOf relabel
    rw [List.any_map]
    exact any_congr fun kv hkv => (entry_relabel hf kv).2.2.1
  have h3 : hasAddressOf (relabel f r) = hasAddressOf r := by
    unfold hasAddressOf relabel
    rw [List.any_map]
    exact any_congr fun kv hkv => (entry_relabel hf kv).2.2.2.1
  have h4 : hasDeviceOrIpOf (relabel f r) = hasDeviceOrIpOf r := by
    unfold hasDeviceOrIpOf relabel
    rw [List.any_map]
    exact any_congr fun kv hkv => (entry_relabel hf kv).2.2.2.2
  have hcombo : comboHitsOf (relabel f r) = comboHitsOf r := by
    unfold comboHitsOf
    rw [h1, h2, h3, h4]
  refine ⟨hhit, hcombo, ?_, ?_⟩
  · unfold isComboPiiOf
    rw [hcombo]
  · unfold redactPass1 relabel
    rw [List.map_map, List.map_map]
    refine List.map_congr_left fun kv hkv => ?_
    show entryFix (f kv.1, kv.2) = (f (entryFix kv).1, (entryFix kv).2)
    rcases hsm : standaloneMask (lowerStr kv.1) (strOfValue kv.2) with _ | m
    · rw [@entryFix_of_none (f kv.1, kv.2)
        (by show standaloneMask (lowerStr (f kv.1)) (strOfValue kv.2) = none
            rw [hf]
            exact hsm),
        entryFix_of_none hsm]
    · rw [@entryFix_of_some (f kv.1, kv.2) m
        (by show standaloneMask (lowerStr (f kv.1)) (strOfValue kv.2) = some m
            rw [hf]
            exact hsm),
        entryFix_of_some hsm]

/-- C2, witness: the surviving case-insensitivity at the `name` → `Name`
relabelling of a concrete record. -/
theorem claim2_witness :
    standaloneHitOf (relabel capName [("name", JValue.vStr "Ravi Kumar")])
      = standaloneHitOf [("name", JValue.vStr "Ravi Kumar")] ∧
    comboHitsOf (relabel capName [("name", JValue.vStr "Ravi Kumar")])
      = comboHitsOf [("name", JValue.vStr "Ravi Kumar")] ∧
    isComboPiiOf (relabel capName [("name", JValue.vStr "Ravi Kumar")])
      = isComboPiiOf [("name", JValue.vStr "Ravi Kumar")] ∧
    redactPass1 (relabel capName [("name", JValue.vStr "Ravi Kumar")])
      = relabel capName (redactPass1 [("name", JValue.vStr "Ravi Kumar")]) :=
  claim2_amended capName_lower [("name", JValue.vStr "Ravi Kumar")]

end PII
